import Mathlib

/-!
Verification of the `parse` crate (RFC 3986 URI / IPv4 / IPv6 parsers and the
TR46 IDNA pipeline) against its natural-language specification.

The Rust source is shallowly embedded over `List Char`.  Every parser takes the
input character list and returns `Option (List Char × α)`: `some (rest, v)`
models a nom `Ok((rest, v))`, `none` models a recoverable nom `Err::Error`
(the source never produces `Err::Failure` on these paths, so one error case
suffices).  Machine integers are modelled as `Nat` with the overflow behaviour
of the corresponding Rust conversions made explicit (`u32::from_str` and
`u32::from_str_radix` fail when the value exceeds `2^32 - 1`).

External Unicode lookup services (the TR46 mapping table, bidi classes,
joining types, scripts, combining classes, NFC) and the external `punycode`
crate are not part of the repository source; following the spec they are
treated as injected read-only services, embedded as a `UnicodeTables`
parameter threaded through the IDNA definitions.
-/

namespace RustHttp

/-! ## Character classes (nom `character::is_*` and `AsChar` predicates) -/

/-- nom `is_digit`: ASCII `0-9`. -/
def isDecDigit (c : Char) : Bool := '0' ≤ c && c ≤ '9'

/-- nom `AsChar::is_hex_digit`: ASCII `0-9A-Fa-f`. -/
def isHexDigitC (c : Char) : Bool :=
  isDecDigit c || ('A' ≤ c && c ≤ 'F') || ('a' ≤ c && c ≤ 'f')

/-- nom `AsChar::is_oct_digit`: ASCII `0-7`. -/
def isOctDigit (c : Char) : Bool := '0' ≤ c && c ≤ '7'

/-- nom `is_alphanumeric`: ASCII `A-Za-z0-9`. -/
def isAlphanumericC (c : Char) : Bool :=
  ('A' ≤ c && c ≤ 'Z') || ('a' ≤ c && c ≤ 'z') || isDecDigit c

/-- Numeric value of a hex digit (value of `c` as a digit in any radix ≤ 16). -/
def digitVal (c : Char) : Nat :=
  if isDecDigit c then c.toNat - '0'.toNat
  else if 'a' ≤ c && c ≤ 'f' then c.toNat - 'a'.toNat + 10
  else if 'A' ≤ c && c ≤ 'F' then c.toNat - 'A'.toNat + 10
  else 0

/-- Value of a digit string in the given radix
(`u32::from_str_radix` without the overflow check). -/
def natOfDigits (radix : Nat) (s : List Char) : Nat :=
  s.foldl (fun acc c => acc * radix + digitVal c) 0

/-! ## Parser model

A `Parser α` models a function returning
`ParseResult<'_, α> = IResult<Input, α, HttpParseError>`:
`some (rest, v)` is success with unconsumed remainder `rest`. -/

abbrev Parser (α : Type) := List Char → Option (List Char × α)

/-- nom `char(c)`. -/
def pchar (c : Char) : Parser Unit := fun i =>
  match i with
  | x :: r => if x = c then some (r, ()) else none
  | [] => none

/-- nom `tag(t)`. -/
def ptag (t : List Char) : Parser Unit := fun i =>
  if t.isPrefixOf i then some (i.drop t.length, ()) else none

/-- nom `take_while(f)`. -/
def ptakeWhile (f : Char → Bool) : Parser (List Char) := fun i =>
  some (i.dropWhile f, i.takeWhile f)

/-- nom `take_while1(f)`. -/
def ptakeWhile1 (f : Char → Bool) : Parser (List Char) := fun i =>
  match i.takeWhile f with
  | [] => none
  | t => some (i.dropWhile f, t)

/-- nom `take_while_m_n(m, n, f)`. -/
def ptakeWhileMN (m n : Nat) (f : Char → Bool) : Parser (List Char) := fun i =>
  let t := (i.takeWhile f).take n
  if t.length < m then none else some (i.drop t.length, t)

/-- nom `alt((p, q))` (ordered choice with full backtracking on `Err::Error`). -/
def palt (p q : Parser α) : Parser α := fun i =>
  match p i with
  | some r => some r
  | none => q i

/-- nom `opt(p)`. -/
def popt (p : Parser α) : Parser (Option α) := fun i =>
  match p i with
  | some (r, v) => some (r, some v)
  | none => some (i, none)

/-- The crate's `many_m_n_(0, 1, p)` from `parse.rs`: apply `p` at most once,
rejecting a zero-length match (the combinator's infinite-loop guard). -/
def manyMN01 (p : Parser α) : Parser Unit := fun i =>
  match p i with
  | some (r, _) => if r = i then none else some (r, ())
  | none => some (i, ())

/-! ## IPv4 parser (`src/ipv4.rs`) -/

/-- `std::net::Ipv4Addr`: four ordered bytes. -/
structure Ipv4Addr where
  a : Nat
  b : Nat
  c : Nat
  d : Nat
deriving DecidableEq, Repr

/-- `parse_ipv4_hex_section`: `0` then `x`/`X` then hex digits (empty ⇒ 0);
`u32::from_str_radix` fails above `2^32 - 1`. -/
def parseIpv4HexSection : Parser Nat := fun i => do
  let (i, _) ← pchar '0' i
  let (i, _) ← palt (pchar 'x') (pchar 'X') i
  let (i, s) ← ptakeWhile isHexDigitC i
  if s = [] then pure (i, 0)
  else
    let v := natOfDigits 16 s
    if v < 2 ^ 32 then pure (i, v) else none

/-- `parse_ipv4_octal_section`: `0` then octal digits (empty ⇒ 0). -/
def parseIpv4OctalSection : Parser Nat := fun i => do
  let (i, _) ← pchar '0' i
  let (i, s) ← ptakeWhile isOctDigit i
  if s = [] then pure (i, 0)
  else
    let v := natOfDigits 8 s
    if v < 2 ^ 32 then pure (i, v) else none

/-- `parse_ipv4_decimal_section`: 1+ decimal digits via `u32::from_str_radix`. -/
def parseIpv4DecimalSection : Parser Nat := fun i => do
  let (i, s) ← ptakeWhile1 isDecDigit i
  let v := natOfDigits 10 s
  if v < 2 ^ 32 then pure (i, v) else none

/-- `parse_ipv4_section(max)`: hex / octal / decimal alternatives followed by
the `num > max` bound check (`fail` on violation). -/
def parseIpv4Section (max : Nat) : Parser Nat := fun i => do
  let (i, num) ←
    palt parseIpv4HexSection (palt parseIpv4OctalSection parseIpv4DecimalSection) i
  if num > max then none else pure (i, num)

/-- `parse_ipv4_three_dots`: four sections each bounded by `0xFF`, separated by
`.`, with at most one trailing `.` consumed. -/
def parseIpv4ThreeDots : Parser Ipv4Addr := fun i => do
  let (i, sa) ← parseIpv4Section 0xFF i
  let (i, _) ← pchar '.' i
  let (i, sb) ← parseIpv4Section 0xFF i
  let (i, _) ← pchar '.' i
  let (i, sc) ← parseIpv4Section 0xFF i
  let (i, _) ← pchar '.' i
  let (i, sd) ← parseIpv4Section 0xFF i
  let (i, _) ← manyMN01 (pchar '.') i
  pure (i, ⟨sa, sb, sc, sd⟩)

/-- `parse_ipv4_two_dots`: `a.b.c` with `c` absorbing the low 16 bits
(`to_be_bytes`). -/
def parseIpv4TwoDots : Parser Ipv4Addr := fun i => do
  let (i, sa) ← parseIpv4Section 0xFF i
  let (i, _) ← pchar '.' i
  let (i, sb) ← parseIpv4Section 0xFF i
  let (i, _) ← pchar '.' i
  let (i, sc) ← parseIpv4Section 0xFFFF i
  let (i, _) ← manyMN01 (pchar '.') i
  pure (i, ⟨sa, sb, sc / 256, sc % 256⟩)

/-- `parse_ipv4_one_dot`: `a.b` with `b` absorbing the low 24 bits
(`to_be_bytes`). -/
def parseIpv4OneDot : Parser Ipv4Addr := fun i => do
  let (i, sa) ← parseIpv4Section 0xFF i
  let (i, _) ← pchar '.' i
  let (i, sb) ← parseIpv4Section 0xFFFFFF i
  let (i, _) ← manyMN01 (pchar '.') i
  pure (i, ⟨sa, sb / 65536, sb / 256 % 256, sb % 256⟩)

/-- `parse_ipv4_zero_dots`: a single 32-bit section split by `to_ne_bytes`
(little-endian on the x86-64 targets this crate builds for). -/
def parseIpv4ZeroDots : Parser Ipv4Addr := fun i => do
  let (i, s) ← parseIpv4Section (2 ^ 32 - 1) i
  let (i, _) ← manyMN01 (pchar '.') i
  pure (i, ⟨s % 256, s / 256 % 256, s / 65536 % 256, s / 16777216 % 256⟩)

/-- `ipv4::parse`: the lenient entry point, ordered alternation of the
3/2/1/0-dot forms (this is the `parse_ipv4` used as the first `Host`
alternative in `uri.rs`). -/
def parseIpv4 : Parser Ipv4Addr :=
  palt parseIpv4ThreeDots
    (palt parseIpv4TwoDots (palt parseIpv4OneDot parseIpv4ZeroDots))

/-! String-literal convenience for stating concrete parses. -/

/-- The characters of a string literal. -/
def cs (s : String) : List Char := s.data

/-! ## IPv6 parser (`src/ipv6.rs`)

`Ipv6Addr::new(a, …, h)` is modelled as the list of its eight 16-bit groups. -/

/-- `parse_h16`: 1–4 hex digits (`u8_to_u16_radix`, which cannot overflow for
at most four hex digits). -/
def parseH16 : Parser Nat := fun i => do
  let (i, s) ← ptakeWhileMN 1 4 isHexDigitC i
  pure (i, natOfDigits 16 s)

/-- `parse_h16_colon`: `h16 ":"`. -/
def parseH16Colon : Parser Nat := fun i => do
  let (i, h) ← parseH16 i
  let (i, _) ← pchar ':' i
  pure (i, h)

/-- `parse_ls32`: `( h16 ":" h16 ) / IPv4address` (strict three-dots form),
an embedded IPv4 contributing its 32 bits as two hextets. -/
def parseLs32 : Parser (Nat × Nat) :=
  palt
    (fun i => do
      let (i, a) ← parseH16 i
      let (i, _) ← pchar ':' i
      let (i, b) ← parseH16 i
      pure (i, (a, b)))
    (fun i => do
      let (i, v4) ← parseIpv4ThreeDots i
      pure (i, (v4.a * 256 + v4.b, v4.c * 256 + v4.d)))

/-- The body of `parse_stuff`'s `while p < N` loop: read up to `n` more
`h16` groups, stopping (without failing) at `"::"`, a non-group, or the bound;
missing groups default to zero. -/
def parseStuffGo : Nat → List Char → List Char × List Nat
  | 0, i => (i, [])
  | n + 1, i =>
    match parseH16 i with
    | some (i', h) =>
      if (cs "::").isPrefixOf i' then (i', h :: List.replicate n 0)
      else
        let i'' := if (cs ":").isPrefixOf i' then i'.drop 1 else i'
        let (r, rest) := parseStuffGo n i''
        (r, h :: rest)
    | none => (i, List.replicate (n + 1) 0)

/-- `parse_stuff::<N>`: the shared `[ *k( h16 ":" ) h16 ]` prefix reader. -/
def parseStuff (n : Nat) (i : List Char) : List Char × List Nat :=
  if (cs "::").isPrefixOf i then (i, List.replicate n 0) else parseStuffGo n i

/-- `parse_ipv6_1`: `6( h16 ":" ) ls32`. -/
def parseIpv6'1 : Parser (List Nat) := fun i => do
  let (i, a) ← parseH16Colon i
  let (i, b) ← parseH16Colon i
  let (i, c) ← parseH16Colon i
  let (i, d) ← parseH16Colon i
  let (i, e) ← parseH16Colon i
  let (i, f) ← parseH16Colon i
  let (i, (g, h)) ← parseLs32 i
  pure (i, [a, b, c, d, e, f, g, h])

/-- `parse_ipv6_2`: `"::" 5( h16 ":" ) ls32`. -/
def parseIpv6'2 : Parser (List Nat) := fun i => do
  let (i, _) ← ptag (cs "::") i
  let (i, b) ← parseH16Colon i
  let (i, c) ← parseH16Colon i
  let (i, d) ← parseH16Colon i
  let (i, e) ← parseH16Colon i
  let (i, f) ← parseH16Colon i
  let (i, (g, h)) ← parseLs32 i
  pure (i, [0, b, c, d, e, f, g, h])

/-- `parse_ipv6_3`: `[ h16 ] "::" 4( h16 ":" ) ls32`. -/
def parseIpv6'3 : Parser (List Nat) := fun i => do
  let (i, a) ← palt parseH16 (fun i => some (i, 0)) i
  let (i, _) ← ptag (cs "::") i
  let (i, c) ← parseH16Colon i
  let (i, d) ← parseH16Colon i
  let (i, e) ← parseH16Colon i
  let (i, f) ← parseH16Colon i
  let (i, (g, h)) ← parseLs32 i
  pure (i, [a, 0, c, d, e, f, g, h])

/-- `parse_ipv6_4`: `[ *1( h16 ":" ) h16 ] "::" 3( h16 ":" ) ls32`. -/
def parseIpv6'4 : Parser (List Nat) := fun i => do
  let (i, pre) := parseStuff 2 i
  let (i, _) ← ptag (cs "::") i
  let (i, d) ← parseH16Colon i
  let (i, e) ← parseH16Colon i
  let (i, f) ← parseH16Colon i
  let (i, (g, h)) ← parseLs32 i
  pure (i, [pre.getD 0 0, pre.getD 1 0, 0, d, e, f, g, h])

/-- `parse_ipv6_5`: `[ *2( h16 ":" ) h16 ] "::" 2( h16 ":" ) ls32`. -/
def parseIpv6'5 : Parser (List Nat) := fun i => do
  let (i, pre) := parseStuff 3 i
  let (i, _) ← ptag (cs "::") i
  let (i, e) ← parseH16Colon i
  let (i, f) ← parseH16Colon i
  let (i, (g, h)) ← parseLs32 i
  pure (i, [pre.getD 0 0, pre.getD 1 0, pre.getD 2 0, 0, e, f, g, h])

/-- `parse_ipv6_6`: `[ *3( h16 ":" ) h16 ] "::" h16 ":" ls32`. -/
def parseIpv6'6 : Parser (List Nat) := fun i => do
  let (i, pre) := parseStuff 4 i
  let (i, _) ← ptag (cs "::") i
  let (i, f) ← parseH16Colon i
  let (i, (g, h)) ← parseLs32 i
  pure (i, [pre.getD 0 0, pre.getD 1 0, pre.getD 2 0, pre.getD 3 0, 0, f, g, h])

/-- `parse_ipv6_7`: `[ *4( h16 ":" ) h16 ] "::" ls32`. -/
def parseIpv6'7 : Parser (List Nat) := fun i => do
  let (i, pre) := parseStuff 5 i
  let (i, _) ← ptag (cs "::") i
  let (i, (g, h)) ← parseLs32 i
  pure (i, [pre.getD 0 0, pre.getD 1 0, pre.getD 2 0, pre.getD 3 0, pre.getD 4 0,
            0, g, h])

/-- `parse_ipv6_8`: `[ *5( h16 ":" ) h16 ] "::" h16`. -/
def parseIpv6'8 : Parser (List Nat) := fun i => do
  let (i, pre) := parseStuff 6 i
  let (i, _) ← ptag (cs "::") i
  let (i, h) ← parseH16 i
  pure (i, [pre.getD 0 0, pre.getD 1 0, pre.getD 2 0, pre.getD 3 0, pre.getD 4 0,
            pre.getD 5 0, 0, h])

/-- `parse_ipv6_9`: `[ *6( h16 ":" ) h16 ] "::"`. -/
def parseIpv6'9 : Parser (List Nat) := fun i => do
  let (i, pre) := parseStuff 7 i
  let (i, _) ← ptag (cs "::") i
  pure (i, [pre.getD 0 0, pre.getD 1 0, pre.getD 2 0, pre.getD 3 0, pre.getD 4 0,
            pre.getD 5 0, pre.getD 6 0, 0])

/-- `ipv6::parse`: ordered alternation over the productions, reproducing the
source's `alt` list verbatim (which lists `parse_ipv6_4` twice). -/
def parseIpv6 : Parser (List Nat) :=
  palt parseIpv6'1 (palt parseIpv6'2 (palt parseIpv6'3 (palt parseIpv6'4
    (palt parseIpv6'4 (palt parseIpv6'5 (palt parseIpv6'6 (palt parseIpv6'7
      (palt parseIpv6'8 parseIpv6'9))))))))

/-! ## URI parser (`src/uri.rs`)

Component payloads are the borrowed input slices, modelled as `List Char`.
(`u8_to_utf8` steps are identity here: a `List Char` input already is decoded
text, and none of the verified inputs involve invalid UTF-8.) -/

/-- nom `consumed(p)`: run `p` and yield the input slice it consumed. -/
def pconsumed (p : Parser α) : Parser (List Char) := fun i =>
  match p i with
  | some (r, _) => some (r, i.take (i.length - r.length))
  | none => none

/-- The loop shared by nom's `many0`/`many1`: repeat `p` while it succeeds,
failing on a zero-length match (nom's infinite-loop guard).  The fuel is one
more than the input length, unreachable because every accepted match consumes. -/
def many0Go (p : Parser α) : Nat → List Char → Option (List Char × Unit)
  | 0, _ => none
  | f + 1, i =>
    match p i with
    | none => some (i, ())
    | some (i1, _) => if i1 = i then none else many0Go p f i1

/-- nom `many0(p)` (result sequence dropped; only the remainder matters). -/
def pmany0 (p : Parser α) : Parser Unit := fun i => many0Go p (i.length + 1) i

/-- nom `many1(p)`. -/
def pmany1 (p : Parser α) : Parser Unit := fun i =>
  match p i with
  | none => none
  | some (i1, _) => many0Go p (i1.length + 1) i1

/-- `uri_unreserved_character` (RFC 3986 2.3). -/
def uriUnreservedCharacter (c : Char) : Bool :=
  isAlphanumericC c || c = '-' || c = '.' || c = '_' || c = '~'

/-- `uri_sub_delimeter` (RFC 3986 2.2). -/
def uriSubDelimeter (c : Char) : Bool :=
  c = '!' || c = '$' || c = '&' || c = '\'' || c = '(' || c = ')' ||
  c = '*' || c = '+' || c = ',' || c = ';' || c = '='

/-- `uri_encoded_character`. -/
def uriEncodedCharacter (c : Char) : Bool := c = '%'

/-- `Scheme::valid_character`: `ALPHA / DIGIT / "+" / "-" / "."`. -/
def schemeValidCharacter (c : Char) : Bool :=
  isAlphanumericC c || c = '+' || c = '-' || c = '.'

/-- `Scheme::parse`: `take_while(valid_character)` terminated by `":"`. -/
def schemeParse : Parser (List Char) := fun i => do
  let (i, s) ← ptakeWhile schemeValidCharacter i
  let (i, _) ← ptag (cs ":") i
  pure (i, s)

/-- `UserInfo::valid_character`. -/
def userInfoValidCharacter (c : Char) : Bool :=
  uriUnreservedCharacter c || uriEncodedCharacter c || uriSubDelimeter c || c = ':'

/-- `UserInfo::parse`: `take_while(valid_character)` terminated by `"@"`. -/
def userInfoParse : Parser (List Char) := fun i => do
  let (i, s) ← ptakeWhile userInfoValidCharacter i
  let (i, _) ← ptag (cs "@") i
  pure (i, s)

/-- `Host::valid_reg_name_character`. -/
def hostValidRegNameCharacter (c : Char) : Bool :=
  uriUnreservedCharacter c || uriEncodedCharacter c || uriSubDelimeter c

/-- `Host::parse`: IPv4 literal first (an IPv4 literal is also a syntactically
valid reg-name), then reg-name, then a bracketed IPv6 literal; the matched
slice is the host text. -/
def hostParse : Parser (List Char) :=
  palt (pconsumed parseIpv4)
    (palt (ptakeWhile1 hostValidRegNameCharacter)
      (pconsumed (fun i => do
        let (i, _) ← pchar '[' i
        let (i, v6) ← parseIpv6 i
        let (i, _) ← pchar ']' i
        pure (i, v6))))

/-- `Port::parse`: `":"` then decimal digits, converted by `u8_to_u32`
(`u32::from_str`, which fails on an empty digit run and on values above
`2^32 - 1`). -/
def portParse : Parser Nat := fun i => do
  let (i, _) ← ptag (cs ":") i
  let (i, s) ← ptakeWhile isDecDigit i
  if s = [] then none
  else
    let v := natOfDigits 10 s
    if v < 2 ^ 32 then pure (i, v) else none

/-- `Authority`. -/
structure Authority where
  userInfo : Option (List Char)
  host : Option (List Char)
  port : Option Nat
deriving DecidableEq, Repr

/-- `Authority::parse`: `"//"` then optional userinfo, host and port. -/
def authorityParse : Parser Authority := fun i => do
  let (i, _) ← ptag (cs "//") i
  let (i, u) ← popt userInfoParse i
  let (i, h) ← popt hostParse i
  let (i, p) ← popt portParse i
  pure (i, ⟨u, h, p⟩)

/-- `Path::valid_path_segment_char`. -/
def pathValidSegmentChar (c : Char) : Bool :=
  uriUnreservedCharacter c || uriSubDelimeter c || uriEncodedCharacter c ||
  c = ':' || c = '@'

/-- `Path::parse`: `consumed(( many0(preceded(many1("/"), 1*pchar)),
many0("/") ))` — the stored path is the consumed slice, duplicate slashes
between segments collapsed only at iteration time. -/
def pathParse : Parser (List Char) :=
  pconsumed (fun i => do
    let (i, _) ← pmany0 (fun i => do
      let (i, _) ← pmany1 (ptag (cs "/")) i
      let (i, s) ← ptakeWhile1 pathValidSegmentChar i
      pure (i, s)) i
    let (i, _) ← pmany0 (ptag (cs "/")) i
    pure (i, ()))

/-- Rust `str::split(sep)`: `n` separators yield `n + 1` pieces, including
empty ones. -/
def splitOnChar (sep : Char) : List Char → List (List Char)
  | [] => [[]]
  | c :: r =>
    if c = sep then [] :: splitOnChar sep r
    else
      match splitOnChar sep r with
      | [] => [[c]]
      | s :: ss => (c :: s) :: ss

/-- `Path::iterate`: `split('/')` filtered to non-empty, non-`"."` segments. -/
def pathIterate (p : List Char) : List (List Char) :=
  (splitOnChar '/' p).filter (fun s => !(s == []) && !(s == ['.']))

/-- `Query::valid_query_char` (also used by `Fragment`). -/
def queryValidChar (c : Char) : Bool :=
  pathValidSegmentChar c || c = '/' || c = '?'

/-- `Query::parse`: `"?"` then permitted characters. -/
def queryParse : Parser (List Char) := fun i => do
  let (i, _) ← ptag (cs "?") i
  let (i, s) ← ptakeWhile queryValidChar i
  pure (i, s)

/-- `Fragment::parse`: `"#"` then permitted characters. -/
def fragmentParse : Parser (List Char) := fun i => do
  let (i, _) ← ptag (cs "#") i
  let (i, s) ← ptakeWhile queryValidChar i
  pure (i, s)

/-- `Uri`. -/
structure Uri where
  scheme : List Char
  authority : Option Authority
  path : List Char
  query : Option (List Char)
  fragment : Option (List Char)
deriving DecidableEq, Repr

/-- `Uri::parse`: scheme, optional authority, path (opaque single-segment form
when no authority is present), optional query, optional fragment. -/
def uriParse : Parser Uri := fun i => do
  let (i, scheme) ← schemeParse i
  let (i, authority) ← popt authorityParse i
  let (i, path) ←
    match authority with
    | some _ => pathParse i
    | none => ptakeWhile pathValidSegmentChar i
  let (i, query) ← popt queryParse i
  let (i, fragment) ← popt fragmentParse i
  pure (i, ⟨scheme, authority, path, query, fragment⟩)

/-- `Uri::port` accessor. -/
def Uri.port (u : Uri) : Option Nat := u.authority.bind (·.port)

/-- `Uri.path()` accessor: iterate the stored path. -/
def Uri.pathSegments (u : Uri) : List (List Char) := pathIterate u.path

/-! ## IDNA pipeline (`src/idna.rs`)

The per-codepoint Unicode property lookups (`unic_idna_mapping::Mapping`,
`CanonicalCombiningClass`, `unicode_joining_type`, `unicode_script`,
`BidiClass`, `is_combining_mark`, NFC) and the `punycode` crate are external
dependencies, consumed by the source as read-only lookup services.  They are
embedded as a `UnicodeTables` parameter; theorems state their required facts
as hypotheses, and concrete instantiations (matching the real tables on the
code points they mention) are used for closed statements. -/

/-- `unic_idna_mapping::Mapping`. -/
inductive Mapping where
  | Valid
  | Ignored
  | Mapped (s : List Char)
  | Deviation (s : List Char)
  | Disallowed
  | DisallowedStd3Valid
  | DisallowedStd3Mapped (s : List Char)
deriving DecidableEq, Repr

/-- `unicode_joining_type::JoiningType`. -/
inductive JoiningType where
  | LeftJoining
  | RightJoining
  | DualJoining
  | JoinCausing
  | NonJoining
  | Transparent
deriving DecidableEq, Repr

/-- The `unic::ucd::BidiClass` values the source inspects (all others
behave identically, collapsed into `Other`). -/
inductive BidiClassT where
  | L | R | AL | AN | EN | ES | CS | ET | ON | BN | NSM | Other
deriving DecidableEq, Repr

/-- The `unicode_script::Script` values the source inspects (all others
collapsed into `Other`). -/
inductive ScriptT where
  | Greek | Hebrew | Hiragana | Katakana | Han | Other
deriving DecidableEq, Repr

/-- The injected read-only Unicode/punycode lookup services. -/
structure UnicodeTables where
  /-- `Mapping::of`. -/
  mapping : Char → Mapping
  /-- `CanonicalCombiningClass::of c == CanonicalCombiningClass::Virama`. -/
  cccIsVirama : Char → Bool
  /-- `get_joining_type`. -/
  joiningType : Char → JoiningType
  /-- `c.script()`. -/
  script : Char → ScriptT
  /-- `c.bidi_class()`. -/
  bidiClass : Char → BidiClassT
  /-- `is_combining_mark`. -/
  isCombiningMark : Char → Bool
  /-- `str::nfc` (applied only to non-ASCII text). -/
  nfc : List Char → List Char
  /-- `punycode::decode` (`none` models `Err`). -/
  punyDecode : List Char → Option (List Char)
  /-- `punycode::encode` (`none` models `Err`). -/
  punyEncode : List Char → Option (List Char)

/-- `IDNAProcessingError` (the `Utf8` variant never arises on these paths). -/
inductive IDNAProcessingError where
  | Utf8
  | InvalidCharacter (c : Char)
  | InvalidLabel (l : List Char)
  | InvalidPunycode (l : List Char)
  | InvalidLabelLength (l : List Char)
  | InvalidDomainLength (l : List Char)
  | InvalidDomain (l : List Char)
deriving DecidableEq, Repr

/-- Outcome of running a piece of the IDNA pipeline: a value, an error value,
a panic (`unwrap` of `Err`), or non-termination of a loop. -/
inductive RunResult (α : Type) where
  | ok (v : α)
  | err (e : IDNAProcessingError)
  | panicked
  | diverged
deriving DecidableEq, Repr

/-- An ASCII lowercase letter, digit, `.` or `-` (the character class of the
`idna_mapping` fast path). -/
def nrChar (c : Char) : Bool :=
  ('a' ≤ c && c ≤ 'z') || isDecDigit c || c = '.' || c = '-'

/-- Is every character an ASCII lowercase letter, digit, `.` or `-`?
(The `idna_mapping` fast-path test.) -/
def allNrChars (s : List Char) : Bool := s.all nrChar

/-- Is the text pure ASCII (`str::is_ascii`)? -/
def isAsciiStr (s : List Char) : Bool := s.all (fun c => c.toNat < 128)

/-- The per-character loop of `idna_mapping`. -/
def idnaMapGo (T : UnicodeTables) (tp std3 : Bool) :
    List Char → Except IDNAProcessingError (List Char)
  | [] => .ok []
  | c :: r =>
    match T.mapping c with
    | .Valid => (idnaMapGo T tp std3 r).map (c :: ·)
    | .Ignored => idnaMapGo T tp std3 r
    | .Mapped s => (idnaMapGo T tp std3 r).map (s ++ ·)
    | .Deviation s =>
      if tp then (idnaMapGo T tp std3 r).map (s ++ ·)
      else (idnaMapGo T tp std3 r).map (c :: ·)
    | .Disallowed => .error (.InvalidCharacter c)
    | .DisallowedStd3Valid =>
      if std3 then .error (.InvalidCharacter c)
      else (idnaMapGo T tp std3 r).map (c :: ·)
    | .DisallowedStd3Mapped s =>
      if std3 then .error (.InvalidCharacter c)
      else (idnaMapGo T tp std3 r).map (s ++ ·)

/-- `idna_mapping`: the TR46 mapping step, with the all-valid fast path that
returns the input unchanged. -/
def idnaMapping (T : UnicodeTables) (domainName : List Char) (tp std3 : Bool) :
    Except IDNAProcessingError (List Char) :=
  if allNrChars domainName then .ok domainName
  else idnaMapGo T tp std3 domainName

/-- `unicode_normalize_form_c`: NFC with the ASCII fast path. -/
def unicodeNormalizeFormC (T : UnicodeTables) (s : List Char) : List Char :=
  if isAsciiStr s then s else T.nfc s

/-! ### ContextJ joiner rules (`label_has_valid_joiners`)

The backward scan over Transparent-joining-type characters is reproduced
verbatim, including the source's `i -= i` (which sets `i` to zero rather than
decrementing it).  The loop either exits within two iterations or repeats the
state `i = 0` forever, so it is embedded with fuel 3 and `none` denoting
non-termination; `zwnjBackLoop_stable` below proves fuel 3 is exact. -/

/-- One-for-one embedding of the `while let Some(c) = label.get(i)` backward
scan, with explicit fuel; `none` means the fuel ran out. -/
def zwnjBackLoop (T : UnicodeTables) (label : List Char) : Nat → Nat → Option Nat
  | _, 0 => none
  | i, f + 1 =>
    match label.get? i with
    | none => some i
    | some c =>
      if T.joiningType c = .Transparent then
        zwnjBackLoop T label (i - i) f
      else
        some i

/-- The backward scan with its exact semantics: fuel 3 decides it
(see `zwnjBackLoop_stable`); `none` means the source loop never terminates. -/
def zwnjBackScan (T : UnicodeTables) (label : List Char) (i : Nat) : Option Nat :=
  zwnjBackLoop T label i 3

/-- The forward scan skipping Transparent characters from index `i` upward. -/
def zwnjFwdSkip (T : UnicodeTables) (label : List Char) (i : Nat) : Nat :=
  match h : label.get? i with
  | some c => if T.joiningType c = .Transparent then zwnjFwdSkip T label (i + 1) else i
  | none => i
termination_by label.length - i
decreasing_by
  have : i < label.length := List.get?_eq_some.mp h |>.1
  omega

/-- U+200C ZERO WIDTH NON-JOINER. -/
def zwnj : Char := Char.ofNat 0x200C

/-- U+200D ZERO WIDTH JOINER. -/
def zwj : Char := Char.ofNat 0x200D

/-- `valid_zero_width_non_joiner`; `none` models non-termination of the
backward scan. -/
def validZeroWidthNonJoiner (T : UnicodeTables) (c : Char) (before : Option Char)
    (label : List Char) (index : Nat) : Option Bool :=
  if c ≠ zwnj then some true
  else if (match before with | some b => T.cccIsVirama b | none => false) then some true
  else if index = 0 then some false
  else
    match zwnjBackScan T label (index - 1) with
    | none => none
    | some i =>
      let beforeOk :=
        match label.get? i with
        | some c' =>
          match T.joiningType c' with
          | .LeftJoining | .DualJoining => true
          | _ => false
        | none => false
      if !beforeOk then some false
      else
        let j := zwnjFwdSkip T label (index + 1)
        match label.get? j with
        | some c' =>
          match T.joiningType c' with
          | .RightJoining | .DualJoining => some true
          | _ => some false
        | none => some false

/-- `valid_zero_width_joiner`. -/
def validZeroWidthJoiner (T : UnicodeTables) (c : Char) (before : Option Char) : Bool :=
  if c ≠ zwj then true
  else match before with
    | some b => T.cccIsVirama b
    | none => false

/-- `valid_middle_dot`. -/
def validMiddleDot (c : Char) (before after : Option Char) : Bool :=
  if c ≠ '·' then true
  else match before, after with
    | some 'l', some 'l' => true
    | _, _ => false

/-- `valid_greek_lower_numeral_sign`. -/
def validGreekLowerNumeralSign (T : UnicodeTables) (c : Char) (after : Option Char) : Bool :=
  if c ≠ '͵' then true
  else match after with
    | some a => T.script a = .Greek
    | none => false

/-- `valid_hebrew_punctuation_geresh`. -/
def validHebrewPunctuationGeresh (T : UnicodeTables) (c : Char) (before : Option Char) : Bool :=
  if c ≠ '׳' then true
  else match before with
    | some b => T.script b = .Hebrew
    | none => false

/-- `valid_katakana_middle_dot`. -/
def validKatakanaMiddleDot (T : UnicodeTables) (c : Char) (label : List Char) : Bool :=
  if c ≠ '・' then true
  else label.any fun c' =>
    match T.script c' with
    | .Hiragana | .Katakana | .Han => true
    | _ => false

/-- `valid_arabic_indic_digit`. -/
def validArabicIndicDigit (c : Char) (label : List Char) : Bool :=
  if !('٠' ≤ c && c ≤ '٩') then true
  else !(label.any fun c' => '۰' ≤ c' && c' ≤ '۹')

/-- `valid_char`: the conjunction of all contextual rules, short-circuiting
left to right (so a diverging ZWNJ scan makes the whole check diverge). -/
def joinersValidChar (T : UnicodeTables) (c : Char) (before after : Option Char)
    (label : List Char) (index : Nat) : Option Bool :=
  match validZeroWidthNonJoiner T c before label index with
  | none => none
  | some false => some false
  | some true =>
    some (validZeroWidthJoiner T c before
      && validMiddleDot c before after
      && validGreekLowerNumeralSign T c after
      && validHebrewPunctuationGeresh T c before
      && validKatakanaMiddleDot T c label
      && validArabicIndicDigit c label)

/-- The prev/cur/next iteration of `label_has_valid_joiners`. -/
def joinersGo (T : UnicodeTables) (label : List Char) :
    Option Char → Char → List Char → Nat → Option Bool
  | prev, cur, rest, index =>
    match joinersValidChar T cur prev rest.head? label index with
    | none => none
    | some false => some false
    | some true =>
      match rest with
      | [] => some true
      | n :: rs => joinersGo T label (some cur) n rs (index + 1)

/-- `label_has_valid_joiners`; `none` models non-termination.  (The source
unwraps the first character; its callers guarantee a non-empty label, and the
empty case here is arbitrary.) -/
def labelHasValidJoiners (T : UnicodeTables) (label : List Char) : Option Bool :=
  match label with
  | [] => some true
  | c :: rest => joinersGo T label none c rest 0

/-! ### Bidi rules -/

/-- `is_domain_bidi`: any character with Bidi class R, AL or AN. -/
def isDomainBidi (T : UnicodeTables) (s : List Char) : Bool :=
  s.any fun c =>
    match T.bidiClass c with
    | .R | .AL | .AN => true
    | _ => false

/-- The allowed-classes scan of `valid_bidi_rtl`, tracking whether an Arabic
or European number has been seen. -/
def validBidiRtlScan (T : UnicodeTables) : List Char → Bool → Bool → Bool
  | [], _, _ => true
  | c :: r, an, en =>
    match T.bidiClass c with
    | .R | .AL | .ES | .CS | .ET | .ON | .BN | .NSM => validBidiRtlScan T r an en
    | .AN => if en then false else validBidiRtlScan T r true en
    | .EN => if an then false else validBidiRtlScan T r an true
    | _ => false

/-- The trailing scan shared by both Bidi directions: walk the reversed label,
breaking at an allowed final class, skipping NSM, rejecting anything else. -/
def bidiEndScan (T : UnicodeTables) (endOk : BidiClassT → Bool) : List Char → Bool
  | [] => true
  | c :: r =>
    if endOk (T.bidiClass c) then true
    else if T.bidiClass c = .NSM then bidiEndScan T endOk r
    else false

/-- `valid_bidi_rtl`. -/
def validBidiRtl (T : UnicodeTables) (label : List Char) : Bool :=
  validBidiRtlScan T label false false
    && bidiEndScan T (fun b => b = .R || b = .AL || b = .EN || b = .AN) label.reverse

/-- `valid_bidi_ltr`. -/
def validBidiLtr (T : UnicodeTables) (label : List Char) : Bool :=
  (label.all fun c =>
    match T.bidiClass c with
    | .L | .EN | .ES | .ET | .ON | .BN | .NSM => true
    | _ => false)
    && bidiEndScan T (fun b => b = .L || b = .EN) label.reverse

/-- `valid_bidi` (the source unwraps the first character; callers guard
non-emptiness, and the empty case here is arbitrary). -/
def validBidi (T : UnicodeTables) (label : List Char) : Bool :=
  match label with
  | [] => false
  | c :: _ =>
    match T.bidiClass c with
    | .R | .AL => validBidiRtl T label
    | .L => validBidiLtr T label
    | _ => false

/-! ### Label validity and the processing loop -/

/-- The codepoint-status re-check of `label_is_valid`. -/
def labelStatusesOk (T : UnicodeTables) (tp : Bool) (label : List Char) : Bool :=
  label.all fun c =>
    match T.mapping c with
    | .Valid => true
    | .Deviation _ => !tp
    | _ => false

/-- `label_is_valid`; `none` models non-termination of the joiner check. -/
def labelIsValid (T : UnicodeTables) (label : List Char)
    (checkHyphens checkJoiners tp : Bool) : Option Bool :=
  if label ≠ unicodeNormalizeFormC T label then some false
  else if checkHyphens
      && (label.get? 2 = some '-' && label.get? 3 = some '-') then some false
  else if checkHyphens
      && (label.head? = some '-' || label.getLast? = some '-') then some false
  else if label.any (· = '.') then some false
  else if (match label.head? with
           | some c => T.isCombiningMark c
           | none => false) then some false
  else if !labelStatusesOk T tp label then some false
  else if checkJoiners && !isAsciiStr label then
    match labelHasValidJoiners T label with
    | none => none
    | some ok => some ok
  else some true

/-- The loop state of `process_idna`'s label loop. -/
structure LabelLoopSt where
  lastLabel : Bool
  firstLabel : Bool
  out : List Char
deriving DecidableEq, Repr

/-- The `first_label`/separator bookkeeping at the head of the non-empty
label branch (`if first_label { … } else if rebuild { out.push('.') }`). -/
def sepUpdate (rebuild : Bool) (st : LabelLoopSt) : LabelLoopSt :=
  if st.firstLabel then { st with firstLabel := false }
  else if rebuild then { st with out := st.out ++ ['.'] }
  else st

/-- The per-label loop of `process_idna` (break at `.`, punycode-decode
`xn--` labels, validate, optionally rebuild). -/
def processLabelsGo (T : UnicodeTables) (ch cj tp rebuild : Bool)
    (domainName : List Char) :
    List (List Char) → LabelLoopSt → RunResult (List Char)
  | [], st => .ok st.out
  | label :: rest, st =>
    if label = [] then
      if st.lastLabel then .err (.InvalidLabel [])
      else
        processLabelsGo T ch cj tp rebuild domainName rest
          { st with lastLabel := true,
                    out := if rebuild then st.out ++ ['.'] else st.out }
    else
      let st := sepUpdate rebuild st
      if st.lastLabel then .err (.InvalidDomain domainName)
      else if (cs "xn--").isPrefixOf label then
        let enc := label.drop 4
        match T.punyDecode enc with
        | none => .err (.InvalidPunycode enc)
        | some dec =>
          match labelIsValid T dec ch cj false with
          | none => .diverged
          | some false => .err (.InvalidLabel dec)
          | some true =>
            processLabelsGo T ch cj tp rebuild domainName rest
              { st with out := st.out ++ dec }
      else
        match labelIsValid T label ch cj tp with
        | none => .diverged
        | some false => .err (.InvalidLabel label)
        | some true =>
          processLabelsGo T ch cj tp rebuild domainName rest
            { st with out := if rebuild then st.out ++ label else st.out }

/-- The `CheckBidi` loop at the end of `process_idna`: first non-empty label
failing `valid_bidi`, if any. -/
def bidiCheckLoop (T : UnicodeTables) : List (List Char) → Option IDNAProcessingError
  | [] => none
  | l :: r =>
    if l ≠ [] && !validBidi T l then some (.InvalidLabel l)
    else bidiCheckLoop T r

/-- `process_idna`: reject empty input, map, normalize, process labels,
optionally rebuild, optionally Bidi-check. -/
def processIdna (T : UnicodeTables) (domainName : List Char)
    (std3 ch cb cj tp : Bool) : RunResult (List Char) :=
  if domainName = [] then .err (.InvalidDomain domainName)
  else
    match idnaMapping T domainName tp std3 with
    | .error e => .err e
    | .ok mapped =>
      let dn := unicodeNormalizeFormC T mapped
      let labels := splitOnChar '.' dn
      let rebuild := labels.any (fun l => (cs "xn--").isPrefixOf l)
      match processLabelsGo T ch cj tp rebuild dn labels ⟨false, true, []⟩ with
      | .err e => .err e
      | .diverged => .diverged
      | .panicked => .panicked
      | .ok out =>
        let dn := if rebuild then out else dn
        if cb && isDomainBidi T dn then
          match bidiCheckLoop T (splitOnChar '.' dn) with
          | some e => .err e
          | none => .ok dn
        else .ok dn

/-- The punycode-encoding loop of `idna_unicode_to_ascii`: ASCII labels are
appended unchanged, non-ASCII labels as `"xn--" ++ encode(label)`;
`.panicked` models the `.unwrap()` on a failed `punycode::encode`. -/
def encodeLabelsGo (T : UnicodeTables) :
    List (List Char) → Bool → List Char → RunResult (List Char)
  | [], _, out => .ok out
  | l :: r, first, out =>
    let out := if first then out else out ++ ['.']
    if isAsciiStr l then encodeLabelsGo T r false (out ++ l)
    else
      match T.punyEncode l with
      | none => .panicked
      | some e => encodeLabelsGo T r false (out ++ cs "xn--" ++ e)

/-- The DNS label-length loop of `idna_unicode_to_ascii`. -/
def dnsLabelLoop (dn : List Char) :
    List (List Char) → Bool → Option IDNAProcessingError
  | [], _ => none
  | l :: r, lastLabel =>
    if lastLabel then some (.InvalidDomain dn)
    else if l = [] then dnsLabelLoop dn r true
    else if !(1 ≤ l.length && l.length ≤ 63) then some (.InvalidLabelLength l)
    else dnsLabelLoop dn r false

/-- `idna_unicode_to_ascii`: processing, punycode encoding (skipped for
all-ASCII results) and optional DNS length verification. -/
def idnaUnicodeToAscii (T : UnicodeTables) (domainName : List Char)
    (ch cb cj std3 tp vdl : Bool) : RunResult (List Char) :=
  match processIdna T domainName std3 ch cb cj tp with
  | .err e => .err e
  | .diverged => .diverged
  | .panicked => .panicked
  | .ok dn =>
    match (if isAsciiStr dn then .ok dn
           else encodeLabelsGo T (splitOnChar '.' dn) true []) with
    | .err e => .err e
    | .diverged => .diverged
    | .panicked => .panicked
    | .ok dn =>
      if vdl then
        let len := if dn.getLast? = some '.' then dn.length - 1 else dn.length
        if !(1 ≤ len && len ≤ 253) then .err (.InvalidDomainLength dn)
        else
          match dnsLabelLoop dn (splitOnChar '.' dn) false with
          | some e => .err e
          | none => .ok dn
      else .ok dn

/-- `idna_ascii_to_unicode`: `process_idna` with the caller's flags. -/
def idnaAsciiToUnicode (T : UnicodeTables) (domainName : List Char)
    (ch cb cj std3 tp : Bool) : RunResult (List Char) :=
  processIdna T domainName std3 ch cb cj tp

/-! ## Punycode decoding

Modelled from the spec: the `punycode` crate is an external dependency whose
source is not part of this repository; §4.9 of the spec defines decoding as
"strip the `xn--` prefix, run the standard Punycode decode algorithm on the
remainder", so the standard algorithm of RFC 3492 §6.2 is reproduced here
(base 36, tmin 1, tmax 26, skew 38, damp 700, initial bias 72, initial n 128),
over unbounded naturals. -/

/-- RFC 3492 digit values: letters (case-insensitively) 0–25, digits 26–35. -/
def punycodeDigit (c : Char) : Option Nat :=
  if 'a' ≤ c && c ≤ 'z' then some (c.toNat - 'a'.toNat)
  else if 'A' ≤ c && c ≤ 'Z' then some (c.toNat - 'A'.toNat)
  else if '0' ≤ c && c ≤ '9' then some (c.toNat - '0'.toNat + 26)
  else none

/-- The division loop of RFC 3492 §6.1 `adapt`. -/
def adaptLoop (delta k : Nat) : Nat × Nat :=
  if h : 455 < delta then adaptLoop (delta / 35) (k + 36) else (delta, k)
termination_by delta
decreasing_by exact Nat.div_lt_self (by omega) (by omega)

/-- RFC 3492 §6.1 `adapt`. -/
def adapt (delta numpoints : Nat) (firsttime : Bool) : Nat :=
  let delta := delta / (if firsttime then 700 else 2)
  let delta := delta + delta / numpoints
  let (delta, k) := adaptLoop delta 0
  k + 36 * delta / (delta + 38)

/-- Read one generalized variable-length integer (the inner `for k` loop of
RFC 3492 §6.2), starting from accumulated value `i`, weight `w` and
position `k`. -/
def decodeVarInt (bias : Nat) : Nat → Nat → Nat → List Char → Option (Nat × List Char)
  | _, _, _, [] => none
  | i, w, k, c :: rest =>
    match punycodeDigit c with
    | none => none
    | some d =>
      let i := i + d * w
      let t := if k ≤ bias then 1 else if bias + 26 ≤ k then 26 else k - bias
      if d < t then some (i, rest)
      else decodeVarInt bias i (w * (36 - t)) (k + 36) rest

/-- The outer insertion loop of RFC 3492 §6.2.  The fuel is the length of the
remaining extended string plus one; each iteration consumes at least one
digit, so the fuel never runs out. -/
def punycodeDecodeLoop :
    Nat → List Char → List Char → Nat → Nat → Nat → Option (List Char)
  | _, [], output, _, _, _ => some output
  | 0, _ :: _, _, _, _, _ => none
  | fuel + 1, ext@(_ :: _), output, n, i, bias =>
    match decodeVarInt bias i 1 36 ext with
    | none => none
    | some (i', rest) =>
      let bias' := adapt (i' - i) (output.length + 1) (i == 0)
      let n' := n + i' / (output.length + 1)
      let pos := i' % (output.length + 1)
      if n'.isValidChar then
        punycodeDecodeLoop fuel rest
          (output.take pos ++ [Char.ofNat n'] ++ output.drop pos) n' (pos + 1) bias'
      else none

/-- Index of the last `-` of the string, if any (the RFC 3492 basic/extended
delimiter is the last hyphen-minus). -/
def lastHyphenIdx (s : List Char) : Option Nat :=
  match s.reverse.findIdx? (· = '-') with
  | some k => some (s.length - 1 - k)
  | none => none

/-- Modelled from the spec: `punycode::decode` per RFC 3492 §6.2 — split at
the last delimiter, keep the basic code points, then run the insertion loop. -/
def punycodeDecode (input : List Char) : Option (List Char) :=
  let (basic, ext) :=
    match lastHyphenIdx input with
    | none => ([], input)
    | some j => (input.take j, input.drop (j + 1))
  if !isAsciiStr basic then none
  else punycodeDecodeLoop (ext.length + 1) ext basic 128 0 72

/-! ## Concrete table instantiations

The theorems below are parametric in the `UnicodeTables`; closed statements
use the following instantiation.  Modelled from the spec: the external
Unicode databases are injected lookup services, and on every code point the
closed statements exercise, these values agree with the real databases
(TR46 status Valid for ASCII lowercase letters, digits, `.` and `-`;
U+0300 is a combining mark of joining type Transparent whose canonical
combining class 230 is not Virama; ASCII text is NFC-stable and
left-to-right). -/
def specTable : UnicodeTables where
  mapping c := if nrChar c then .Valid else .Disallowed
  cccIsVirama _ := false
  joiningType c := if c.toNat = 0x300 then .Transparent else .NonJoining
  script _ := .Other
  bidiClass _ := .L
  isCombiningMark c := c.toNat = 0x300
  nfc s := s
  punyDecode := punycodeDecode
  punyEncode _ := none

/-! ## Helper lemmas -/

/-- If the first label character has Transparent joining type, the backward
scan's `i -= i` keeps the index at `0` forever: no amount of fuel makes the
loop terminate. -/
theorem zwnjBackLoop_zero_trans {T : UnicodeTables} {l : List Char} {c : Char}
    (h0 : l.get? 0 = some c) (ht : T.joiningType c = .Transparent) :
    ∀ f, zwnjBackLoop T l 0 f = none := by
  intro f
  induction f with
  | zero => rfl
  | succ f ih =>
    rw [zwnjBackLoop, h0]
    simp only [ht, if_pos rfl, Nat.sub_self]
    exact ih

/-- One unfolding step of the backward scan. -/
theorem zwnjBackLoop_succ (T : UnicodeTables) (l : List Char) (j f : Nat) :
    zwnjBackLoop T l j (f + 1) =
      (match l.get? j with
       | none => some j
       | some c =>
         if T.joiningType c = .Transparent then zwnjBackLoop T l (j - j) f
         else some j) := rfl

/-- Fuel 3 computes the backward scan exactly: any larger fuel gives the same
result, so `zwnjBackScan … = none` really means the source loop diverges. -/
theorem zwnjBackLoop_stable (T : UnicodeTables) (l : List Char) (i : Nat) :
    ∀ f, 3 ≤ f → zwnjBackLoop T l i f = zwnjBackScan T l i := by
  intro f hf
  obtain ⟨g, rfl⟩ : ∃ g, f = g + 3 := ⟨f - 3, by omega⟩
  rw [zwnjBackScan]
  rw [show g + 3 = (g + 2) + 1 from rfl, show (3 : Nat) = 2 + 1 from rfl,
    zwnjBackLoop_succ T l i (g + 2), zwnjBackLoop_succ T l i 2]
  cases hi : l.get? i with
  | none => rfl
  | some c =>
    dsimp only
    by_cases ht : T.joiningType c = .Transparent
    · rw [if_pos ht, if_pos ht, Nat.sub_self]
      cases h0 : l.get? 0 with
      | none =>
        rw [show g + 2 = (g + 1) + 1 from rfl, show (2 : Nat) = 1 + 1 from rfl,
          zwnjBackLoop_succ T l 0 (g + 1), zwnjBackLoop_succ T l 0 1, h0]
      | some c0 =>
        by_cases ht0 : T.joiningType c0 = .Transparent
        · rw [zwnjBackLoop_zero_trans h0 ht0, zwnjBackLoop_zero_trans h0 ht0]
        · rw [show g + 2 = (g + 1) + 1 from rfl, show (2 : Nat) = 1 + 1 from rfl,
            zwnjBackLoop_succ T l 0 (g + 1), zwnjBackLoop_succ T l 0 1, h0]
          dsimp only
          rw [if_neg ht0, if_neg ht0]
    · rw [if_neg ht, if_neg ht]

/-- A parser is suffix-preserving when its unconsumed remainder is a suffix
of its input (every parser here consumes a prefix). -/
def SuffixPres (p : Parser α) : Prop :=
  ∀ i r v, p i = some (r, v) → r.IsSuffix i

/-- Inversion for `Option` bind chains (the shape every embedded nom
sequence desugars to). -/
theorem bind_some_inv {α β : Type} {o : Option α} {f : α → Option β} {b : β}
    (h : o >>= f = some b) : ∃ a, o = some a ∧ f a = some b := by
  cases o with
  | none => cases h
  | some a => exact ⟨a, rfl, h⟩

theorem ptag_suffixPres (t : List Char) : SuffixPres (ptag t) := by
  intro i r v h
  unfold ptag at h
  split at h
  · simp only [Option.some.injEq, Prod.mk.injEq] at h
    obtain ⟨h1, -⟩ := h
    subst h1
    exact List.drop_suffix _ _
  · cases h

theorem ptakeWhile1_suffixPres (f : Char → Bool) : SuffixPres (ptakeWhile1 f) := by
  intro i r v h
  unfold ptakeWhile1 at h
  split at h
  · cases h
  · simp only [Option.some.injEq, Prod.mk.injEq] at h
    obtain ⟨h1, -⟩ := h
    subst h1
    exact List.dropWhile_suffix _

/-- One unfolding step of `many0Go`. -/
theorem many0Go_succ (p : Parser α) (f : Nat) (i : List Char) :
    many0Go p (f + 1) i =
      (match p i with
       | none => some (i, ())
       | some (i1, _) => if i1 = i then none else many0Go p f i1) := rfl

theorem many0Go_suffix {p : Parser α} (hp : SuffixPres p) :
    ∀ f i r v, many0Go p f i = some (r, v) → r.IsSuffix i := by
  intro f
  induction f with
  | zero => intro i r v h; cases h
  | succ f ih =>
    intro i r v h
    rw [many0Go_succ] at h
    cases hpi : p i with
    | none =>
      simp only [hpi] at h
      simp only [Option.some.injEq, Prod.mk.injEq] at h
      obtain ⟨h1, -⟩ := h
      subst h1
      exact List.suffix_refl _
    | some x =>
      obtain ⟨i1, a⟩ := x
      simp only [hpi] at h
      split at h
      · cases h
      · exact (ih i1 r v h).trans (hp i i1 _ hpi)

theorem pmany0_suffixPres {p : Parser α} (hp : SuffixPres p) : SuffixPres (pmany0 p) :=
  fun i r v h => many0Go_suffix hp _ i r v h

theorem pmany1_suffixPres {p : Parser α} (hp : SuffixPres p) : SuffixPres (pmany1 p) := by
  intro i r v h
  unfold pmany1 at h
  cases hpi : p i with
  | none =>
    simp only [hpi] at h
    exact Option.noConfusion h
  | some x =>
    obtain ⟨i1, a⟩ := x
    simp only [hpi] at h
    exact (many0Go_suffix hp _ i1 r v h).trans (hp i i1 _ hpi)

/-- The inner (non-`consumed`) body of `Path::parse`. -/
def pathCore : Parser Unit := fun i => do
  let (i, _) ← pmany0 (fun i => do
    let (i, _) ← pmany1 (ptag (cs "/")) i
    let (i, s) ← ptakeWhile1 pathValidSegmentChar i
    pure (i, s)) i
  let (i, _) ← pmany0 (ptag (cs "/")) i
  pure (i, ())

theorem pathCore_suffixPres : SuffixPres pathCore := by
  have hseg : SuffixPres (fun i => do
      let (i, _) ← pmany1 (ptag (cs "/")) i
      let (i, s) ← ptakeWhile1 pathValidSegmentChar i
      pure (i, s)) := by
    intro i r v h
    obtain ⟨⟨i1, a1⟩, h1, h⟩ := bind_some_inv h
    obtain ⟨⟨i2, a2⟩, h2, h⟩ := bind_some_inv h
    simp only [pure, Option.some.injEq, Prod.mk.injEq] at h
    obtain ⟨h3, -⟩ := h
    exact h3 ▸ ((ptakeWhile1_suffixPres _ i1 i2 _ h2).trans
      (pmany1_suffixPres (ptag_suffixPres _) i i1 _ h1))
  intro i r v h
  obtain ⟨⟨i1, a1⟩, h1, h⟩ := bind_some_inv h
  obtain ⟨⟨i2, a2⟩, h2, h⟩ := bind_some_inv h
  simp only [pure, Option.some.injEq, Prod.mk.injEq] at h
  obtain ⟨h3, -⟩ := h
  exact h3 ▸ ((pmany0_suffixPres (ptag_suffixPres _) i1 i2 _ h2).trans
    (pmany0_suffixPres hseg i i1 _ h1))

/-- `pathParse` is `pconsumed pathCore`. -/
theorem pathParse_eq : pathParse = pconsumed pathCore := rfl

/-- For a suffix-preserving parser, `consumed` really yields the consumed
prefix: prefix ++ remainder = input. -/
theorem pconsumed_append {p : Parser α} (hp : SuffixPres p) :
    ∀ i r t, pconsumed p i = some (r, t) → t ++ r = i := by
  intro i r t h
  unfold pconsumed at h
  cases hpi : p i with
  | none => rw [hpi] at h; cases h
  | some x =>
    obtain ⟨r', a⟩ := x
    rw [hpi] at h
    simp only [Option.some.injEq, Prod.mk.injEq] at h
    obtain ⟨h1, h2⟩ := h
    subst h1
    subst h2
    obtain ⟨s, hs⟩ := hp i r' _ hpi
    subst hs
    rw [List.length_append, Nat.add_sub_cancel, List.take_left]

/-! ## Claims -/

/-- C1: the spec asserts that `idna_to_ascii`/`idna_to_unicode` and in
particular the ContextJ check `label_has_valid_joiners` terminate on every
label, including a label in which U+200C (ZWNJ) is immediately preceded by a
character of Transparent joining type.  The code violates this: for the label
`[U+0300, U+200C]` (U+0300 COMBINING GRAVE ACCENT has Transparent joining
type and its canonical combining class 230 is not Virama) the backward scan
executes `i -= i`, which leaves `i = 0` forever, so the check never returns —
for every fuel the loop is still running, and `labelHasValidJoiners` reports
divergence. -/
theorem joiner_check_diverges_on_transparent_prefix :
    specTable.joiningType (Char.ofNat 0x300) = .Transparent ∧
    specTable.cccIsVirama (Char.ofNat 0x300) = false ∧
    labelHasValidJoiners specTable [Char.ofNat 0x300, zwnj] = none ∧
    ∀ f, zwnjBackLoop specTable [Char.ofNat 0x300, zwnj] 0 f = none := by
  refine ⟨by decide, by decide, by decide, ?_⟩
  exact zwnjBackLoop_zero_trans (c := Char.ofNat 0x300) (by decide) (by decide)

/-- C2 counterexample: the claim says the IPv4 parser used for the IPv6
`ls32` alternative (and URI hosts) rejects `0x`-prefixed hex octets,
leading-zero octal octets, and octets of more than three digits; in fact
`parse_ipv4_three_dots` accepts all three forms. -/
theorem ipv4_strict_accepts_hex_octal :
    parseIpv4ThreeDots (cs "0xff.0.0.1") = some ([], ⟨255, 0, 0, 1⟩) ∧
    parseIpv4ThreeDots (cs "0377.0.0.1") = some ([], ⟨255, 0, 0, 1⟩) ∧
    parseIpv4ThreeDots (cs "00000001.2.3.4") = some ([], ⟨1, 2, 3, 4⟩) := by
  refine ⟨by decide, by decide, by decide⟩

/-- C2 amended: `parse_ipv4_three_dots` accepts exactly four dot-separated
sections, each written in decimal, `0x`/`0X`-prefixed hex, or
leading-`0` octal form with arbitrarily many digits, values bounded by 255,
with at most one trailing dot consumed; the claimed boundary examples hold:
`"255.255.255.255"` is all-0xFF, `"256.0.0.1"` fails, `"1.2.3.4."` parses to
1.2.3.4 (and of `"1.2.3.4.."` only one trailing dot is consumed). -/
theorem ipv4_three_dots_spec :
    parseIpv4ThreeDots (cs "255.255.255.255") = some ([], ⟨255, 255, 255, 255⟩) ∧
    parseIpv4ThreeDots (cs "256.0.0.1") = none ∧
    parseIpv4ThreeDots (cs "1.2.3.4.") = some ([], ⟨1, 2, 3, 4⟩) ∧
    parseIpv4ThreeDots (cs "1.2.3.4..") = some (cs ".", ⟨1, 2, 3, 4⟩) ∧
    parseIpv4ThreeDots (cs "0xff.0377.000.1") = some ([], ⟨255, 255, 0, 1⟩) := by
  refine ⟨by decide, by decide, by decide, by decide, by decide⟩

/-- C8: for URIs with an authority, `"/a/b"`, `"/a//b"`, `"/a/./b"` and
`"/a/b//"` all yield path segments `["a","b"]`; iteration filters empty and
`"."` segments at presentation time while the stored path text is exactly the
consumed input slice (prefix ++ remainder = input). -/
theorem uri_path_normalization :
    ((uriParse (cs "http://example.com/a/b")).map (fun r => r.2.pathSegments) =
      some [cs "a", cs "b"]) ∧
    ((uriParse (cs "http://example.com/a//b")).map (fun r => r.2.pathSegments) =
      some [cs "a", cs "b"]) ∧
    ((uriParse (cs "http://example.com/a/./b")).map (fun r => r.2.pathSegments) =
      some [cs "a", cs "b"]) ∧
    ((uriParse (cs "http://example.com/a/b//")).map (fun r => r.2.pathSegments) =
      some [cs "a", cs "b"]) ∧
    ((uriParse (cs "http://example.com/a/b//")).map (fun r => r.2.path) =
      some (cs "/a/b//")) ∧
    (∀ i r p, pathParse i = some (r, p) → p ++ r = i) :=
  ⟨by decide, by decide, by decide, by decide, by decide,
    fun i r p h => pconsumed_append pathCore_suffixPres i r p (pathParse_eq ▸ h)⟩

/-- C8 witness: the stored-path prefix property applied at `"/a/b"`. -/
theorem uri_path_normalization_witness : cs "/a/b" ++ ([] : List Char) = cs "/a/b" :=
  uri_path_normalization.2.2.2.2.2 (cs "/a/b") [] (cs "/a/b") (by decide)

/-- The scheme slice produced by `Scheme::parse` is the maximal
`valid_character` prefix of the input. -/
theorem schemeParse_scheme {i r s} (h : schemeParse i = some (r, s)) :
    s = i.takeWhile schemeValidCharacter := by
  obtain ⟨⟨i1, s1⟩, h1, h⟩ := bind_some_inv h
  obtain ⟨⟨i2, u⟩, h2, h⟩ := bind_some_inv h
  simp only [pure, Option.some.injEq, Prod.mk.injEq] at h
  obtain ⟨-, hs⟩ := h
  unfold ptakeWhile at h1
  simp only [Option.some.injEq, Prod.mk.injEq] at h1
  obtain ⟨-, hs1⟩ := h1
  rw [← hs, ← hs1]

/-- Every URI accepted by `Uri::parse` has a scheme consisting solely of
`ALPHA / DIGIT / "+" / "-" / "."` characters. -/
theorem uriParse_scheme_valid :
    ∀ i r u, uriParse i = some (r, u) → u.scheme.all schemeValidCharacter = true := by
  intro i r u h
  obtain ⟨⟨i1, s⟩, hs, h⟩ := bind_some_inv h
  obtain ⟨⟨i2, a⟩, ha, h⟩ := bind_some_inv h
  have finish : ∀ x : List Char × Uri, x = (r, u) → x.2.scheme = s →
      u.scheme.all schemeValidCharacter = true := by
    rintro ⟨r', u'⟩ hx hsch
    cases hx
    rw [hsch, schemeParse_scheme hs]
    exact List.all_takeWhile
  cases a with
  | some aa =>
    obtain ⟨⟨i3, p⟩, hp3, h⟩ := bind_some_inv h
    obtain ⟨⟨i4, q⟩, hq, h⟩ := bind_some_inv h
    obtain ⟨⟨i5, fr⟩, hf, h⟩ := bind_some_inv h
    simp only [pure, Option.some.injEq] at h
    exact finish _ h rfl
  | none =>
    obtain ⟨⟨i3, p⟩, hp3, h⟩ := bind_some_inv h
    obtain ⟨⟨i4, q⟩, hq, h⟩ := bind_some_inv h
    obtain ⟨⟨i5, fr⟩, hf, h⟩ := bind_some_inv h
    simp only [pure, Option.some.injEq] at h
    exact finish _ h rfl

/-- C5 counterexample: the claim says an accepted URI's scheme is non-empty
and starts with a letter, and that an empty or digit-led scheme text fails the
parse; in fact `Uri::parse` accepts `"://x"` with an empty scheme and
`"1http://x"` with a digit-led scheme (the source's own `parse_scheme_empty`
test asserts the empty case at the `Scheme` level). -/
theorem scheme_empty_accepted :
    uriParse (cs "://x") =
      some ([], ⟨[], some ⟨none, some (cs "x"), none⟩, [], none, none⟩) ∧
    (uriParse (cs "1http://x")).map (fun r => r.2.scheme) = some (cs "1http") := by
  refine ⟨by decide, by decide⟩

/-- C5 amended: the scheme accepted by `Uri::parse` is
`*( ALPHA / DIGIT / "+" / "-" / "." )` terminated by `":"` — possibly empty
and with unconstrained first character: every accepted URI's scheme consists
solely of such characters, and the empty/digit-led examples parse. -/
theorem scheme_grammar :
    ((uriParse (cs "://x")).map (fun r => r.2.scheme) = some []) ∧
    ((uriParse (cs "1a+b-c.d://x")).map (fun r => r.2.scheme) = some (cs "1a+b-c.d")) ∧
    (∀ i r u, uriParse i = some (r, u) → u.scheme.all schemeValidCharacter = true) :=
  ⟨by decide, by decide, uriParse_scheme_valid⟩

/-- C5 witness: the scheme-character property applied at `"http://x"`. -/
theorem scheme_grammar_witness : (cs "http").all schemeValidCharacter = true :=
  scheme_grammar.2.2 (cs "http://x")
    [] ⟨cs "http", some ⟨none, some (cs "x"), none⟩, [], none, none⟩ (by decide)

/-- `Port::parse` on `":"` followed by a maximal digit run: the value is
returned when it fits in a `u32`, otherwise the sub-parser fails. -/
theorem portParse_digits :
    ∀ ds rest : List Char, ds ≠ [] → (∀ c ∈ ds, isDecDigit c = true) →
      (∀ c, rest.head? = some c → isDecDigit c = false) →
      portParse (':' :: (ds ++ rest)) =
        if natOfDigits 10 ds < 2 ^ 32 then some (rest, natOfDigits 10 ds) else none := by
  intro ds rest h1 h2 h3
  have hds : ds.takeWhile isDecDigit = ds := List.takeWhile_eq_self_iff.mpr h2
  have hdrop : ds.dropWhile isDecDigit = [] := List.dropWhile_eq_nil_iff.mpr h2
  have hhead : ∀ hl : 0 < rest.length, isDecDigit rest[0] = false := by
    intro hl
    cases rest with
    | nil => simp at hl
    | cons a l => exact h3 a rfl
  have hrest_take : rest.takeWhile isDecDigit = [] := by
    rw [List.takeWhile_eq_nil_iff]
    intro hl
    simp [hhead hl]
  have hrest_drop : rest.dropWhile isDecDigit = rest := by
    rw [List.dropWhile_eq_self_iff]
    intro hl
    simp [hhead hl]
  have htw : (ds ++ rest).takeWhile isDecDigit = ds := by
    rw [List.takeWhile_append, hds, if_pos rfl, hrest_take, List.append_nil]
  have hdw : (ds ++ rest).dropWhile isDecDigit = rest := by
    rw [List.dropWhile_append, hdrop]
    simp [hrest_drop]
  have htag : ptag (cs ":") (':' :: (ds ++ rest)) = some (ds ++ rest, ()) := by
    simp [ptag, cs, List.isPrefixOf]
  have step1 : portParse (':' :: (ds ++ rest)) =
      (ptakeWhile isDecDigit (ds ++ rest) >>= fun x =>
        match x with
        | (i, s) =>
          if s = [] then none
          else if natOfDigits 10 s < 2 ^ 32 then some (i, natOfDigits 10 s)
          else none) := by
    unfold portParse
    rw [htag]
    rfl
  have step2 : ptakeWhile isDecDigit (ds ++ rest) = some (rest, ds) := by
    unfold ptakeWhile
    rw [htw, hdw]
  rw [step1, step2]
  show (if ds = [] then none
        else if natOfDigits 10 ds < 2 ^ 32 then some (rest, natOfDigits 10 ds)
        else none) =
      (if natOfDigits 10 ds < 2 ^ 32 then some (rest, natOfDigits 10 ds) else none)
  rw [if_neg h1]

/-- C10: the port has no 16-bit bound — a digit run whose value fits in a
`u32` is returned exactly (`99999` is accepted); a too-large run makes the
port sub-parser fail, which `opt` turns into an absent port with the `":"`
and digits left unconsumed, and the overall parse still succeeds. -/
theorem port_no_16bit_bound :
    (∀ ds rest : List Char, ds ≠ [] → (∀ c ∈ ds, isDecDigit c = true) →
      (∀ c, rest.head? = some c → isDecDigit c = false) →
      portParse (':' :: (ds ++ rest)) =
        if natOfDigits 10 ds < 2 ^ 32 then some (rest, natOfDigits 10 ds) else none) ∧
    ((uriParse (cs "http://example.com:99999")).map (fun r => r.2.port) =
      some (some 99999)) ∧
    ((uriParse (cs "http://example.com:4294967296/p")).map
        (fun r => (r.1, r.2.port)) =
      some (cs ":4294967296/p", none)) :=
  ⟨portParse_digits, by decide, by decide⟩

/-- C10 witness: the port lemma applied at `":9"`. -/
theorem port_no_16bit_bound_witness : portParse (cs ":9") = some ([], 9) := by
  simpa using port_no_16bit_bound.1 ['9'] [] (by decide) (by decide) (by decide)

/-! ### Lemmas about the IDNA label machinery -/

/-- An `nrChar` is ASCII. -/
theorem nrChar_ascii {c : Char} (h : nrChar c = true) : c.toNat < 128 := by
  have hdef : c.toNat = c.val.toBitVec.toNat := rfl
  unfold nrChar isDecDigit at h
  simp only [Bool.or_eq_true, Bool.and_eq_true, decide_eq_true_eq] at h
  rcases h with ((⟨-, h2⟩ | ⟨-, h2⟩) | h2) | h2
  · have hle := BitVec.le_def.mp (UInt32.le_def.mp (Char.le_def.mp h2))
    have hz : ('z').val.toBitVec.toNat = 122 := rfl
    rw [hdef]
    omega
  · have hle := BitVec.le_def.mp (UInt32.le_def.mp (Char.le_def.mp h2))
    have hz : ('9').val.toBitVec.toNat = 57 := rfl
    rw [hdef]
    omega
  · subst h2; decide
  · subst h2; decide

/-- All-`nrChar` text is ASCII. -/
theorem allNrChars_ascii {s : List Char} (h : allNrChars s = true) :
    isAsciiStr s = true := by
  unfold allNrChars at h
  unfold isAsciiStr
  rw [List.all_eq_true] at h ⊢
  intro c hc
  simpa using nrChar_ascii (h c hc)

/-- ASCII text is a fixed point of the NFC stage. -/
theorem normalizeFormC_ascii {T : UnicodeTables} {s : List Char}
    (h : isAsciiStr s = true) : unicodeNormalizeFormC T s = s := by
  unfold unicodeNormalizeFormC
  rw [if_pos h]

/-- Members of split pieces are members of the split string and differ from
the separator. -/
theorem splitOnChar_mem {sep : Char} :
    ∀ (s : List Char) (l : List Char), l ∈ splitOnChar sep s →
      ∀ c ∈ l, c ∈ s ∧ c ≠ sep := by
  intro s
  induction s with
  | nil =>
    intro l hl c hc
    simp only [splitOnChar, List.mem_singleton] at hl
    subst hl
    cases hc
  | cons a s ih =>
    intro l hl c hc
    rw [splitOnChar] at hl
    split at hl
    · rcases List.mem_cons.mp hl with rfl | hl
      · cases hc
      · obtain ⟨hmem, hne⟩ := ih l hl c hc
        exact ⟨List.mem_cons_of_mem _ hmem, hne⟩
    · rename_i hne
      rcases hsplit : splitOnChar sep s with - | ⟨p, ps⟩
      · rw [hsplit] at hl
        simp only [List.mem_singleton] at hl
        subst hl
        rcases List.mem_singleton.mp hc with rfl
        exact ⟨List.mem_cons_self _ _, hne⟩
      · rw [hsplit] at hl
        rcases List.mem_cons.mp hl with rfl | hl
        · rcases List.mem_cons.mp hc with rfl | hc
          · exact ⟨List.mem_cons_self _ _, hne⟩
          · obtain ⟨hmem, hne'⟩ := ih p (hsplit ▸ List.mem_cons_self _ _) c hc
            exact ⟨List.mem_cons_of_mem _ hmem, hne'⟩
        · obtain ⟨hmem, hne'⟩ := ih l (hsplit ▸ List.mem_cons_of_mem _ hl) c hc
          exact ⟨List.mem_cons_of_mem _ hmem, hne'⟩

/-- `label_is_valid` accepts an ASCII label whose characters are all
status-Valid, are not combining marks, contain no dot, once the hyphen
conditions hold. -/
theorem labelIsValid_of_ascii {T : UnicodeTables} {l : List Char}
    {ch cj tp : Bool}
    (hascii : isAsciiStr l = true)
    (hmapV : ∀ c ∈ l, T.mapping c = .Valid)
    (hcm : ∀ c ∈ l, T.isCombiningMark c = false)
    (hnodot : ∀ c ∈ l, c ≠ '.')
    (hhy : ch = true →
      ¬(l.get? 2 = some '-' ∧ l.get? 3 = some '-') ∧
      l.head? ≠ some '-' ∧ l.getLast? ≠ some '-') :
    labelIsValid T l ch cj tp = some true := by
  unfold labelIsValid
  rw [normalizeFormC_ascii hascii]
  rw [if_neg (by simp)]
  have hdot : l.any (· = '.') = false := by
    rw [Bool.eq_false_iff]
    intro hany
    obtain ⟨c, hc, hceq⟩ := List.any_eq_true.mp hany
    exact hnodot c hc (by simpa using hceq)
  have hstat : labelStatusesOk T tp l = true := by
    unfold labelStatusesOk
    rw [List.all_eq_true]
    intro c hc
    rw [hmapV c hc]
  have hcmh : (match l.head? with
      | some c => T.isCombiningMark c
      | none => false) = false := by
    cases hh : l.head? with
    | none => rfl
    | some c => exact hcm c (List.mem_of_mem_head? hh)
  rw [if_neg (by
    simp only [Bool.and_eq_true, decide_eq_true_eq]
    rintro ⟨hcht, hc2, hc3⟩
    exact (hhy hcht).1 ⟨hc2, hc3⟩)]
  rw [if_neg (by
    simp only [Bool.and_eq_true, Bool.or_eq_true, decide_eq_true_eq]
    rintro ⟨hcht, hc⟩
    rcases hc with hc | hc
    · exact (hhy hcht).2.1 hc
    · exact (hhy hcht).2.2 hc)]
  rw [if_neg (by simp [hdot]), if_neg (by simp [hcmh]),
    if_neg (by simp [hstat]), if_neg (by simp [hascii])]

/-- The `first_label`/separator bookkeeping does not change `last_label`. -/
theorem sepUpdate_lastLabel (st : LabelLoopSt) (rb : Bool) :
    (sepUpdate rb st).lastLabel = st.lastLabel := by
  unfold sepUpdate
  split
  · rfl
  · split <;> rfl

/-- With rebuilding off, the separator bookkeeping does not change `out`. -/
theorem sepUpdate_out_false (st : LabelLoopSt) :
    (sepUpdate false st).out = st.out := by
  unfold sepUpdate
  split
  · rfl
  · rw [if_neg Bool.false_ne_true]

/-- Once `last_label` is set, a further label (empty or not) is an error:
the loop can no longer succeed. -/
theorem processLabelsGo_lastLabel {T : UnicodeTables} {ch cj tp rb : Bool}
    {dn : List Char} :
    ∀ (l : List Char) (rest : List (List Char)) st, st.lastLabel = true →
      ∀ out, processLabelsGo T ch cj tp rb dn (l :: rest) st ≠ .ok out := by
  intro l rest st hlast out h
  rw [processLabelsGo] at h
  by_cases hl : l = []
  · rw [if_pos hl, if_pos hlast] at h
    exact RunResult.noConfusion h
  · rw [if_neg hl] at h
    simp only at h
    rw [sepUpdate_lastLabel, if_pos hlast] at h
    exact RunResult.noConfusion h

/-- A split list with an empty piece before the last position makes the label
loop fail (or diverge): it never returns `.ok`. -/
theorem processLabelsGo_not_ok_of_bad {T : UnicodeTables} {ch cj tp rb : Bool}
    {dn : List Char} :
    ∀ (L : List (List Char)) st,
      (∃ k, k + 1 < L.length ∧ L.get? k = some []) →
      ∀ out, processLabelsGo T ch cj tp rb dn L st ≠ .ok out := by
  intro L
  induction L with
  | nil =>
    rintro st ⟨k, hk, -⟩ out
    simp at hk
  | cons l rest ih =>
    rintro st ⟨k, hk, hget⟩ out h
    rw [processLabelsGo] at h
    by_cases hl : l = []
    · rw [if_pos hl] at h
      by_cases hlast : st.lastLabel
      · rw [if_pos hlast] at h
        exact RunResult.noConfusion h
      · rw [if_neg hlast] at h
        cases k with
        | zero =>
          have hrest : rest ≠ [] := by
            simp only [List.length_cons] at hk
            intro hcontr
            rw [hcontr] at hk
            simp at hk
          cases rest with
          | nil => exact hrest rfl
          | cons r rs => exact processLabelsGo_lastLabel r rs _ rfl out h
        | succ k' =>
          refine ih _ ⟨k', ?_, ?_⟩ out h
          · simpa using hk
          · simpa using hget
    · rw [if_neg hl] at h
      cases k with
      | zero =>
        simp only [List.get?_cons_zero, Option.some.injEq] at hget
        exact hl hget
      | succ k' =>
        have hbad' : ∃ k, k + 1 < rest.length ∧ rest.get? k = some [] :=
          ⟨k', by simpa using hk, by simpa using hget⟩
        simp only at h
        rw [sepUpdate_lastLabel] at h
        split at h
        · exact RunResult.noConfusion h
        · split at h
          · split at h
            · exact RunResult.noConfusion h
            · split at h
              · exact RunResult.noConfusion h
              · exact RunResult.noConfusion h
              · exact ih _ hbad' out h
          · split at h
            · exact RunResult.noConfusion h
            · exact RunResult.noConfusion h
            · exact ih _ hbad' out h

/-- With rebuilding off, no `xn--` label, valid non-empty labels and empty
pieces only in final position, the label loop succeeds and leaves `out`
untouched. -/
theorem processLabelsGo_ok_of_nr {T : UnicodeTables} {ch cj tp : Bool}
    (dn : List Char) :
    ∀ (L : List (List Char)) st, st.lastLabel = false →
      (∀ l ∈ L.dropLast, l ≠ []) →
      (∀ l ∈ L, ¬(cs "xn--").isPrefixOf l) →
      (∀ l ∈ L, l ≠ [] → labelIsValid T l ch cj tp = some true) →
      processLabelsGo T ch cj tp false dn L st = .ok st.out := by
  intro L
  induction L with
  | nil => intro st _ _ _ _; rfl
  | cons l rest ih =>
    intro st hlast hshape hxn hval
    have hshape' : ∀ l' ∈ rest.dropLast, l' ≠ [] := by
      intro l' hl'
      rcases hr : rest with - | ⟨r, rs⟩
      · rw [hr] at hl'; cases hl'
      · refine hshape l' ?_
        rw [List.dropLast_cons_of_ne_nil (by rw [hr]; exact List.cons_ne_nil _ _)]
        exact List.mem_cons_of_mem _ hl'
    rw [processLabelsGo]
    by_cases hl : l = []
    · rw [if_pos hl, if_neg (by rw [hlast]; exact Bool.false_ne_true)]
      have hrest : rest = [] := by
        by_contra hr
        exact hshape l (by
          rw [List.dropLast_cons_of_ne_nil hr]
          exact List.mem_cons_self _ _) hl
      subst hrest
      rfl
    · rw [if_neg hl]
      simp only
      rw [sepUpdate_lastLabel]
      rw [if_neg (by rw [hlast]; exact Bool.false_ne_true)]
      rw [if_neg (by
        simp only [Bool.not_eq_true]
        rw [Bool.eq_false_iff]
        exact hxn l (List.mem_cons_self _ _))]
      rw [hval l (List.mem_cons_self _ _) hl]
      refine (ih _ ?_ ?_ ?_ ?_).trans ?_
      · exact hlast
      · exact hshape'
      · exact fun l' hl' => hxn l' (List.mem_cons_of_mem _ hl')
      · exact fun l' hl' => hval l' (List.mem_cons_of_mem _ hl')
      · show RunResult.ok (if (false : Bool) then (sepUpdate false st).out ++ l
            else (sepUpdate false st).out) = RunResult.ok st.out
        rw [if_neg Bool.false_ne_true, sepUpdate_out_false]

/-- `process_idna` is the identity on nonempty all-`nrChar` domains whose
labels are structurally well-formed (empties only final, no `xn--` prefix,
hyphen conditions when `CheckHyphens`), for lookup tables that agree with the
real Unicode databases on this character class. -/
theorem processIdna_nr {T : UnicodeTables} {d : List Char} {ch : Bool}
    (std3 cb cj tp : Bool)
    (hall : allNrChars d = true) (hne : d ≠ [])
    (hshape : ∀ l ∈ (splitOnChar '.' d).dropLast, l ≠ [])
    (hxn : ∀ l ∈ splitOnChar '.' d, ¬(cs "xn--").isPrefixOf l)
    (hhy : ch = true → ∀ l ∈ splitOnChar '.' d,
      ¬(l.get? 2 = some '-' ∧ l.get? 3 = some '-') ∧
      l.head? ≠ some '-' ∧ l.getLast? ≠ some '-')
    (hmapV : ∀ c, nrChar c = true → T.mapping c = .Valid)
    (hcm : ∀ c, nrChar c = true → T.isCombiningMark c = false)
    (hbd : ∀ c, nrChar c = true →
      T.bidiClass c ≠ .R ∧ T.bidiClass c ≠ .AL ∧ T.bidiClass c ≠ .AN) :
    processIdna T d std3 ch cb cj tp = .ok d := by
  have hascii : isAsciiStr d = true := allNrChars_ascii hall
  have hmap : idnaMapping T d tp std3 = .ok d := by
    unfold idnaMapping
    rw [if_pos hall]
  have hnorm : unicodeNormalizeFormC T d = d := normalizeFormC_ascii hascii
  have hdall : ∀ c ∈ d, nrChar c = true := List.all_eq_true.mp hall
  have hlchar : ∀ l ∈ splitOnChar '.' d, ∀ c ∈ l, nrChar c = true ∧ c ≠ '.' := by
    intro l hl c hc
    obtain ⟨hmem, hne'⟩ := splitOnChar_mem d l hl c hc
    exact ⟨hdall c hmem, hne'⟩
  have hreb : (splitOnChar '.' d).any (fun l => (cs "xn--").isPrefixOf l) = false := by
    rw [Bool.eq_false_iff]
    intro hany
    obtain ⟨l, hl, hpre⟩ := List.any_eq_true.mp hany
    exact hxn l hl hpre
  have hval : ∀ l ∈ splitOnChar '.' d, l ≠ [] →
      labelIsValid T l ch cj tp = some true := by
    intro l hl hlne
    refine labelIsValid_of_ascii ?_ ?_ ?_ ?_ ?_
    · rw [isAsciiStr, List.all_eq_true]
      intro c hc
      simpa using nrChar_ascii (hlchar l hl c hc).1
    · exact fun c hc => hmapV c (hlchar l hl c hc).1
    · exact fun c hc => hcm c (hlchar l hl c hc).1
    · exact fun c hc => (hlchar l hl c hc).2
    · exact fun hch => hhy hch l hl
  have hloop := processLabelsGo_ok_of_nr d (splitOnChar '.' d)
    ⟨false, true, []⟩ rfl hshape hxn hval
  have hbidi : isDomainBidi T d = false := by
    rw [isDomainBidi, Bool.eq_false_iff]
    intro hany
    obtain ⟨c, hc, hcls⟩ := List.any_eq_true.mp hany
    obtain ⟨h1, h2, h3⟩ := hbd c (hdall c hc)
    cases hb : T.bidiClass c <;> rw [hb] at hcls <;> first
      | exact Bool.noConfusion hcls
      | exact h1 hb
      | exact h2 hb
      | exact h3 hb
  unfold processIdna
  rw [if_neg hne, hmap]
  simp only [hnorm, hreb, hloop, hbidi, Bool.and_false, Bool.false_eq_true,
    if_false]

/-- The DNS label-length loop accepts well-shaped label lists with every
label of length at most 63. -/
theorem dnsLabelLoop_none {dn : List Char} :
    ∀ L : List (List Char), (∀ l ∈ L.dropLast, l ≠ []) →
      (∀ l ∈ L, l.length ≤ 63) →
      dnsLabelLoop dn L false = none := by
  intro L
  induction L with
  | nil => intro _ _; rfl
  | cons l rest ih =>
    intro hshape hlen
    rw [dnsLabelLoop, if_neg Bool.false_ne_true]
    by_cases hl : l = []
    · rw [if_pos hl]
      have hrest : rest = [] := by
        by_contra hr
        exact hshape l (by
          rw [List.dropLast_cons_of_ne_nil hr]
          exact List.mem_cons_self _ _) hl
      subst hrest
      rfl
    · rw [if_neg hl]
      have h1 : 1 ≤ l.length := by
        rcases l with - | ⟨c, cs'⟩
        · exact absurd rfl hl
        · simp
      have hcond : (!(decide (1 ≤ l.length) && decide (l.length ≤ 63))) = false := by
        simp [h1, hlen l (List.mem_cons_self _ _)]
      rw [if_neg (by rw [hcond]; exact Bool.false_ne_true)]
      refine ih ?_ ?_
      · intro l' hl'
        rcases hr : rest with - | ⟨r, rs⟩
        · rw [hr] at hl'; cases hl'
        · refine hshape l' ?_
          rw [List.dropLast_cons_of_ne_nil (by rw [hr]; exact List.cons_ne_nil _ _)]
          exact List.mem_cons_of_mem _ hl'
      · exact fun l' hl' => hlen l' (List.mem_cons_of_mem _ hl')

/-- C4 counterexample: the claim says `idna_to_ascii` and `idna_to_unicode`
are the identity on every domain made solely of ASCII lowercase letters,
digits, `.` and `-`, for every flag combination; the domain `"."` consists
solely of such characters, yet both operations reject it (its second empty
label follows the root label). -/
theorem idna_not_identity_on_nr :
    allNrChars (cs ".") = true ∧
    idnaAsciiToUnicode specTable (cs ".") false false false false false =
      .err (.InvalidLabel []) ∧
    idnaUnicodeToAscii specTable (cs ".") false false false false false false =
      .err (.InvalidLabel []) := by
  refine ⟨by decide, by decide, by decide⟩

/-- C4 amended: on a nonempty domain of ASCII lowercase letters, digits, `.`
and `-` whose labels are empty only in final position, none beginning with
`"xn--"`, and satisfying the hyphen restrictions whenever `CheckHyphens` is
set, both `idna_to_unicode` and `idna_to_ascii` return the input unchanged —
for every flag combination, with `VerifyDnsLength` additionally requiring the
usual 1–253/1–63 length bounds (for tables agreeing with the real Unicode
data on this character class: these code points are status-Valid, are not
combining marks, and are not of Bidi class R/AL/AN). -/
theorem idna_identity_on_nr {T : UnicodeTables} {d : List Char}
    {std3 ch cb cj tp vdl : Bool}
    (hall : allNrChars d = true) (hne : d ≠ [])
    (hshape : ∀ l ∈ (splitOnChar '.' d).dropLast, l ≠ [])
    (hxn : ∀ l ∈ splitOnChar '.' d, ¬(cs "xn--").isPrefixOf l)
    (hhy : ch = true → ∀ l ∈ splitOnChar '.' d,
      ¬(l.get? 2 = some '-' ∧ l.get? 3 = some '-') ∧
      l.head? ≠ some '-' ∧ l.getLast? ≠ some '-')
    (hmapV : ∀ c, nrChar c = true → T.mapping c = .Valid)
    (hcm : ∀ c, nrChar c = true → T.isCombiningMark c = false)
    (hbd : ∀ c, nrChar c = true →
      T.bidiClass c ≠ .R ∧ T.bidiClass c ≠ .AL ∧ T.bidiClass c ≠ .AN)
    (hlen : vdl = true →
      (1 ≤ (if d.getLast? = some '.' then d.length - 1 else d.length) ∧
        (if d.getLast? = some '.' then d.length - 1 else d.length) ≤ 253) ∧
      ∀ l ∈ splitOnChar '.' d, l.length ≤ 63) :
    idnaAsciiToUnicode T d ch cb cj std3 tp = .ok d ∧
    idnaUnicodeToAscii T d ch cb cj std3 tp vdl = .ok d := by
  have hproc := processIdna_nr std3 cb cj tp hall hne hshape hxn hhy hmapV hcm hbd
  have hascii : isAsciiStr d = true := allNrChars_ascii hall
  refine ⟨hproc, ?_⟩
  unfold idnaUnicodeToAscii
  rw [hproc]
  simp only [hascii, if_true]
  cases vdl with
  | false => rfl
  | true =>
    obtain ⟨⟨hlo, hhi⟩, hlab⟩ := hlen rfl
    rw [if_pos rfl]
    have hcond : (!(decide (1 ≤ (if d.getLast? = some '.' then d.length - 1
        else d.length)) && decide ((if d.getLast? = some '.' then d.length - 1
        else d.length) ≤ 253))) = false := by
      simp [hlo, hhi]
    rw [if_neg (by rw [hcond]; exact Bool.false_ne_true)]
    rw [dnsLabelLoop_none (splitOnChar '.' d) hshape hlab]

/-- C4 witness: the amended identity applied to `"example.com"` with every
check enabled. -/
theorem idna_identity_on_nr_witness :
    idnaAsciiToUnicode specTable (cs "example.com") true true true true true =
      .ok (cs "example.com") ∧
    idnaUnicodeToAscii specTable (cs "example.com") true true true true true true =
      .ok (cs "example.com") := by
  refine idna_identity_on_nr (by decide) (by decide) (by decide) (by decide)
    (fun _ => by decide) ?_ ?_ ?_ (fun _ => by decide)
  · intro c hc
    show (if nrChar c then Mapping.Valid else Mapping.Disallowed) = Mapping.Valid
    rw [if_pos hc]
  · intro c hc
    have hlt := nrChar_ascii hc
    show decide (c.toNat = 0x300) = false
    simp only [decide_eq_false_iff_not]
    omega
  · intro c _
    refine ⟨?_, ?_, ?_⟩ <;> simp [specTable]

/-- C7: `process_idna` rejects the empty domain for every table and flag
combination; whenever the mapped-and-normalized form splits into labels with
an empty label before the last position (equivalently: some label follows an
empty label), processing never succeeds; and a domain with a single trailing
dot is accepted (concretely `"a."`, by `process_idna`, `idna_to_unicode` and
`idna_to_ascii`). -/
theorem processIdna_empty_label_rules :
    (∀ (T : UnicodeTables) (std3 ch cb cj tp : Bool),
      processIdna T [] std3 ch cb cj tp = .err (.InvalidDomain [])) ∧
    (∀ (T : UnicodeTables) (d : List Char) (std3 ch cb cj tp : Bool)
      (mapped : List Char), d ≠ [] →
      idnaMapping T d tp std3 = .ok mapped →
      (∃ k, k + 1 < (splitOnChar '.' (unicodeNormalizeFormC T mapped)).length ∧
        (splitOnChar '.' (unicodeNormalizeFormC T mapped)).get? k = some []) →
      ∀ out, processIdna T d std3 ch cb cj tp ≠ .ok out) ∧
    (processIdna specTable (cs "a.") false false false false false =
      .ok (cs "a.")) ∧
    (idnaAsciiToUnicode specTable (cs "a.") false false false false false =
      .ok (cs "a.")) ∧
    (idnaUnicodeToAscii specTable (cs "a.") false false false false false true =
      .ok (cs "a.")) := by
  refine ⟨?_, ?_, by decide, by decide, by decide⟩
  · intro T std3 ch cb cj tp
    rw [processIdna, if_pos rfl]
  · intro T d std3 ch cb cj tp mapped hne hmap hbad out h
    rw [processIdna, if_neg hne, hmap] at h
    simp only at h
    revert h
    cases hres : processLabelsGo T ch cj tp
        ((splitOnChar '.' (unicodeNormalizeFormC T mapped)).any
          (fun l => (cs "xn--").isPrefixOf l))
        (unicodeNormalizeFormC T mapped)
        (splitOnChar '.' (unicodeNormalizeFormC T mapped))
        ⟨false, true, []⟩ with
    | ok out' => exact absurd hres (processLabelsGo_not_ok_of_bad _ _ hbad out')
    | err e => intro h; exact RunResult.noConfusion h
    | panicked => intro h; exact RunResult.noConfusion h
    | diverged => intro h; exact RunResult.noConfusion h

/-- C7 witness: the non-final-empty-label rule applied at `"a..b"`. -/
theorem processIdna_empty_label_rules_witness :
    ¬(processIdna specTable (cs "a..b") false false false false false =
      .ok (cs "a..b")) :=
  processIdna_empty_label_rules.2.1 specTable (cs "a..b") false false false false
    false (cs "a..b") (by decide) rfl ⟨1, by decide, by decide⟩ (cs "a..b")

/-! ### Joining labels back together -/

/-- Join pieces with a separator (the inverse of `splitOnChar`). -/
def joinSep (sep : Char) : List (List Char) → List Char
  | [] => []
  | [l] => l
  | l :: r => l ++ sep :: joinSep sep r

/-- `splitOnChar` never returns the empty list of pieces. -/
theorem splitOnChar_ne_nil (sep : Char) : ∀ s : List Char, splitOnChar sep s ≠ [] := by
  intro s
  cases s with
  | nil => exact fun h => List.noConfusion h
  | cons c r =>
    rw [splitOnChar]
    split
    · exact fun h => List.noConfusion h
    · rcases hs : splitOnChar sep r with - | ⟨p, ps⟩
      · exact fun h => List.noConfusion h
      · exact fun h => List.noConfusion h

/-- `joinSep` undoes `splitOnChar`. -/
theorem joinSep_splitOnChar (sep : Char) :
    ∀ s : List Char, joinSep sep (splitOnChar sep s) = s := by
  intro s
  induction s with
  | nil => rfl
  | cons c r ih =>
    rw [splitOnChar]
    split
    · rename_i hc
      subst hc
      rcases hs : splitOnChar c r with - | ⟨p, ps⟩
      · exact absurd hs (splitOnChar_ne_nil c r)
      · show ([] : List Char) ++ c :: joinSep c (p :: ps) = c :: r
        rw [List.nil_append, ← hs, ih]
    · rcases hs : splitOnChar sep r with - | ⟨p, ps⟩
      · exact absurd hs (splitOnChar_ne_nil sep r)
      · rcases ps with - | ⟨q, qs⟩
        · show c :: p = c :: r
          have h3 : p = r := by
            have h2 := ih
            rw [hs] at h2
            exact h2
          rw [h3]
        · show (c :: p) ++ sep :: joinSep sep (q :: qs) = c :: r
          have h3 : p ++ sep :: joinSep sep (q :: qs) = r := by
            have h2 := ih
            rw [hs] at h2
            exact h2
          rw [List.cons_append, h3]

/-- `splitOnChar` undoes `joinSep` on separator-free pieces. -/
theorem splitOnChar_joinSep (sep : Char) :
    ∀ L : List (List Char), L ≠ [] → (∀ l ∈ L, ∀ c ∈ l, c ≠ sep) →
      splitOnChar sep (joinSep sep L) = L := by
  have hpiece : ∀ (l : List Char) (rest : List Char),
      (∀ c ∈ l, c ≠ sep) →
      splitOnChar sep (l ++ sep :: rest) = l :: splitOnChar sep rest ∧
      splitOnChar sep l = [l] := by
    intro l
    induction l with
    | nil =>
      intro rest _
      constructor
      · show splitOnChar sep (sep :: rest) = [] :: splitOnChar sep rest
        rw [splitOnChar, if_pos rfl]
      · rfl
    | cons c cl ih =>
      intro rest hfree
      have hcne : c ≠ sep := hfree c (List.mem_cons_self _ _)
      have hfree' : ∀ c' ∈ cl, c' ≠ sep :=
        fun c' hc' => hfree c' (List.mem_cons_of_mem _ hc')
      obtain ⟨ih1, ih2⟩ := ih rest hfree'
      constructor
      · show splitOnChar sep (c :: (cl ++ sep :: rest)) = (c :: cl) :: splitOnChar sep rest
        rw [splitOnChar, if_neg hcne, ih1]
      · show splitOnChar sep (c :: cl) = [c :: cl]
        rw [splitOnChar, if_neg hcne, ih2]
  intro L
  induction L with
  | nil => intro h _; exact absurd rfl h
  | cons l rest ih =>
    intro _ hfree
    rcases rest with - | ⟨r, rs⟩
    · exact (hpiece l [] (hfree l (List.mem_cons_self _ _))).2
    · show splitOnChar sep (l ++ sep :: joinSep sep (r :: rs)) = l :: (r :: rs)
      rw [(hpiece l _ (hfree l (List.mem_cons_self _ _))).1]
      rw [ih (List.cons_ne_nil _ _)
        (fun l' hl' => hfree l' (List.mem_cons_of_mem _ hl'))]

/-- Every character of a joined list is in one of the pieces or is the
separator. -/
theorem mem_joinSep {sep : Char} :
    ∀ (L : List (List Char)) (c : Char), c ∈ joinSep sep L →
      (∃ l ∈ L, c ∈ l) ∨ c = sep := by
  intro L
  induction L with
  | nil => intro c hc; cases hc
  | cons l rest ih =>
    intro c hc
    rcases rest with - | ⟨r, rs⟩
    · exact Or.inl ⟨l, List.mem_singleton_self _, hc⟩
    · replace hc : c ∈ l ++ sep :: joinSep sep (r :: rs) := hc
      rcases List.mem_append.mp hc with hc | hc
      · exact Or.inl ⟨l, List.mem_cons_self _ _, hc⟩
      · rcases List.mem_cons.mp hc with rfl | hc
        · exact Or.inr rfl
        · rcases ih c hc with ⟨l', hl', hcl⟩ | hsep
          · exact Or.inl ⟨l', List.mem_cons_of_mem _ hl', hcl⟩
          · exact Or.inr hsep

/-! ### Label validity inversion and monotonicity -/

/-- Codepoint statuses passing Transitional checking (or any checking) also
pass Nontransitional checking. -/
theorem labelStatusesOk_mono {T : UnicodeTables} {tp : Bool} {l : List Char}
    (h : labelStatusesOk T tp l = true) : labelStatusesOk T false l = true := by
  unfold labelStatusesOk at h ⊢
  rw [List.all_eq_true] at h ⊢
  intro c hc
  have hx := h c hc
  revert hx
  cases T.mapping c with
  | Valid => exact fun _ => rfl
  | Ignored => exact fun hx => Bool.noConfusion hx
  | Mapped s => exact fun hx => Bool.noConfusion hx
  | Deviation s => exact fun _ => rfl
  | Disallowed => exact fun hx => Bool.noConfusion hx
  | DisallowedStd3Valid => exact fun hx => Bool.noConfusion hx
  | DisallowedStd3Mapped s => exact fun hx => Bool.noConfusion hx

/-- A label valid for some processing choice is valid for Nontransitional
processing (the other checks do not depend on the flag). -/
theorem labelIsValid_mono {T : UnicodeTables} {l : List Char} {ch cj tp : Bool}
    (h : labelIsValid T l ch cj tp = some true) :
    labelIsValid T l ch cj false = some true := by
  unfold labelIsValid at h ⊢
  by_cases h1 : l ≠ unicodeNormalizeFormC T l
  · rw [if_pos h1] at h; exact absurd h (by simp)
  rw [if_neg h1] at h ⊢
  by_cases h2 : (ch && (decide (l.get? 2 = some '-') && decide (l.get? 3 = some '-'))) = true
  · rw [if_pos h2] at h; exact absurd h (by simp)
  rw [if_neg h2] at h ⊢
  by_cases h3 : (ch && (decide (l.head? = some '-') || decide (l.getLast? = some '-'))) = true
  · rw [if_pos h3] at h; exact absurd h (by simp)
  rw [if_neg h3] at h ⊢
  by_cases h4 : (l.any (· = '.')) = true
  · rw [if_pos h4] at h; exact absurd h (by simp)
  rw [if_neg h4] at h ⊢
  by_cases h5 : (match l.head? with
      | some c => T.isCombiningMark c
      | none => false) = true
  · rw [if_pos h5] at h; exact absurd h (by simp)
  rw [if_neg h5] at h ⊢
  by_cases h6 : (!labelStatusesOk T tp l) = true
  · rw [if_pos h6] at h; exact absurd h (by simp)
  rw [if_neg h6] at h
  have h6' : labelStatusesOk T tp l = true := by
    simpa using h6
  rw [if_neg (by simp [labelStatusesOk_mono h6'])]
  by_cases h7 : (cj && !isAsciiStr l) = true
  · rw [if_pos h7] at h ⊢; exact h
  · rw [if_neg h7] at h ⊢

/-- Inversion of a successful `label_is_valid`: the statuses pass, the label
has no dot, and it is NFC-stable. -/
theorem labelIsValid_inv {T : UnicodeTables} {l : List Char} {ch cj tp : Bool}
    (h : labelIsValid T l ch cj tp = some true) :
    labelStatusesOk T tp l = true ∧ (∀ c ∈ l, c ≠ '.') ∧
      l = unicodeNormalizeFormC T l := by
  unfold labelIsValid at h
  by_cases h1 : l ≠ unicodeNormalizeFormC T l
  · rw [if_pos h1] at h; exact absurd h (by simp)
  rw [if_neg h1] at h
  by_cases h2 : (ch && (decide (l.get? 2 = some '-') && decide (l.get? 3 = some '-'))) = true
  · rw [if_pos h2] at h; exact absurd h (by simp)
  rw [if_neg h2] at h
  by_cases h3 : (ch && (decide (l.head? = some '-') || decide (l.getLast? = some '-'))) = true
  · rw [if_pos h3] at h; exact absurd h (by simp)
  rw [if_neg h3] at h
  by_cases h4 : (l.any (· = '.')) = true
  · rw [if_pos h4] at h; exact absurd h (by simp)
  rw [if_neg h4] at h
  by_cases h5 : (match l.head? with
      | some c => T.isCombiningMark c
      | none => false) = true
  · rw [if_pos h5] at h; exact absurd h (by simp)
  rw [if_neg h5] at h
  by_cases h6 : (!labelStatusesOk T tp l) = true
  · rw [if_pos h6] at h; exact absurd h (by simp)
  refine ⟨by simpa using h6, ?_, by simpa using h1⟩
  intro c hc hceq
  refine h4 ?_
  rw [List.any_eq_true]
  exact ⟨c, hc, by simp [hceq]⟩

/-! ### The label-processing relation

`Steps T ch cj tp L M t` says the label loop transforms the label list `L`
into the processed labels `M` (punycode-decoding `xn--` labels, keeping the
rest), with `t` recording a single trailing empty (root) label. -/

inductive Steps (T : UnicodeTables) (ch cj tp : Bool) :
    List (List Char) → List (List Char) → Bool → Prop where
  | nil : Steps T ch cj tp [] [] false
  | trail : Steps T ch cj tp [[]] [] true
  | puny {l m : List Char} {L M : List (List Char)} {t : Bool} :
      l ≠ [] → (cs "xn--").isPrefixOf l →
      T.punyDecode (l.drop 4) = some m →
      labelIsValid T m ch cj false = some true →
      Steps T ch cj tp L M t → Steps T ch cj tp (l :: L) (m :: M) t
  | direct {l : List Char} {L M : List (List Char)} {t : Bool} :
      l ≠ [] → ¬(cs "xn--").isPrefixOf l →
      labelIsValid T l ch cj tp = some true →
      Steps T ch cj tp L M t → Steps T ch cj tp (l :: L) (l :: M) t

/-- Every processed label is valid for Nontransitional processing. -/
theorem Steps.valid {T : UnicodeTables} {ch cj tp : Bool}
    {L M : List (List Char)} {t : Bool} (hs : Steps T ch cj tp L M t) :
    ∀ m ∈ M, labelIsValid T m ch cj false = some true := by
  induction hs with
  | nil => intro m hm; cases hm
  | trail => intro m hm; cases hm
  | puny hne hpre hdec hval hrec ih =>
    intro m' hm'
    rcases List.mem_cons.mp hm' with rfl | hm'
    · exact hval
    · exact ih m' hm'
  | direct hne hpre hval hrec ih =>
    intro m' hm'
    rcases List.mem_cons.mp hm' with rfl | hm'
    · exact labelIsValid_mono hval
    · exact ih m' hm'

/-- When no label carries the ACE prefix, processing keeps the labels: the
source list is the processed list plus the recorded root label. -/
theorem Steps.eq_of_no_xn {T : UnicodeTables} {ch cj tp : Bool}
    {L M : List (List Char)} {t : Bool} (hs : Steps T ch cj tp L M t)
    (hxn : ∀ l ∈ L, ¬(cs "xn--").isPrefixOf l) :
    L = M ++ (if t then [[]] else []) := by
  induction hs with
  | nil => rfl
  | trail => rfl
  | puny hne hpre hdec hval hrec ih =>
    exact absurd hpre (hxn _ (List.mem_cons_self _ _))
  | direct hne hpre hval hrec ih =>
    rw [List.cons_append]
    rw [← ih (fun l' hl' => hxn l' (List.mem_cons_of_mem _ hl'))]

/-- The source list of a `Steps` run is never empty. -/
theorem Steps.src_ne_nil {T : UnicodeTables} {ch cj tp : Bool}
    {L M : List (List Char)} {t : Bool} (hs : Steps T ch cj tp L M t)
    (hL : L ≠ []) : M ≠ [] ∨ t = true := by
  cases hs with
  | nil => exact absurd rfl hL
  | trail => exact Or.inr rfl
  | puny hne hpre hdec hval hrec => exact Or.inl (List.cons_ne_nil _ _)
  | direct hne hpre hval hrec => exact Or.inl (List.cons_ne_nil _ _)

/-- The rebuild output contributed by the processed labels `M`, `first`
recording whether a separator precedes the first of them. -/
def outSegs (first : Bool) (M : List (List Char)) : List Char :=
  match M with
  | [] => []
  | _ :: _ => if first then joinSep '.' M else '.' :: joinSep '.' M

/-- The full rebuild output: processed labels plus a trailing root dot. -/
def outFormula (first : Bool) (M : List (List Char)) (t : Bool) : List Char :=
  outSegs first M ++ (if t then ['.'] else [])

/-- The separator bookkeeping leaves `first_label` cleared. -/
theorem sepUpdate_firstLabel (rb : Bool) (st : LabelLoopSt) :
    (sepUpdate rb st).firstLabel = false := by
  unfold sepUpdate
  split
  · rfl
  · rename_i hf
    have hf' : st.firstLabel = false := by simpa using hf
    split
    · exact hf'
    · exact hf'

/-- The `out` of the separator bookkeeping when rebuilding. -/
theorem sepUpdate_out_true (st : LabelLoopSt) :
    (sepUpdate true st).out =
      if st.firstLabel then st.out else st.out ++ ['.'] := by
  unfold sepUpdate
  split
  · rfl
  · rfl

theorem outFormula_cons_true (m : List Char) (M : List (List Char)) (t : Bool) :
    m ++ outFormula false M t = outFormula true (m :: M) t := by
  cases M with
  | nil => rfl
  | cons x xs =>
    show m ++ (('.' :: joinSep '.' (x :: xs)) ++ (if t = true then ['.'] else [])) =
      (m ++ '.' :: joinSep '.' (x :: xs)) ++ (if t = true then ['.'] else [])
    rw [List.append_assoc]

theorem outFormula_cons_false (m : List Char) (M : List (List Char)) (t : Bool) :
    '.' :: (m ++ outFormula false M t) = outFormula false (m :: M) t := by
  cases M with
  | nil => rfl
  | cons x xs =>
    show '.' :: (m ++ (('.' :: joinSep '.' (x :: xs)) ++ (if t = true then ['.'] else []))) =
      '.' :: ((m ++ '.' :: joinSep '.' (x :: xs)) ++ (if t = true then ['.'] else []))
    rw [List.append_assoc]

/-- Step equation: an empty label (with `last_label` clear) recurses with
`last_label` set and a separator pushed when rebuilding. -/
theorem processLabelsGo_cons_empty (T : UnicodeTables) (ch cj tp rb : Bool)
    (dn : List Char) (rest : List (List Char)) (st : LabelLoopSt)
    (hlast : st.lastLabel = false) :
    processLabelsGo T ch cj tp rb dn ([] :: rest) st =
      processLabelsGo T ch cj tp rb dn rest
        { st with lastLabel := true,
                  out := if rb then st.out ++ ['.'] else st.out } := by
  rw [processLabelsGo, if_pos rfl,
    if_neg (by rw [hlast]; exact Bool.false_ne_true)]

/-- Step equation: an `xn--` label with decodable remainder and valid
(non-transitional) decoding recurses with the decoding appended. -/
theorem processLabelsGo_cons_puny_ok (T : UnicodeTables) (ch cj tp rb : Bool)
    (dn l : List Char) (rest : List (List Char)) (st : LabelLoopSt) (m : List Char)
    (hl : l ≠ []) (hlast : st.lastLabel = false)
    (hpre : (cs "xn--").isPrefixOf l = true)
    (hdec : T.punyDecode (l.drop 4) = some m)
    (hval : labelIsValid T m ch cj false = some true) :
    processLabelsGo T ch cj tp rb dn (l :: rest) st =
      processLabelsGo T ch cj tp rb dn rest
        { sepUpdate rb st with out := (sepUpdate rb st).out ++ m } := by
  rw [processLabelsGo, if_neg hl]
  simp only
  rw [sepUpdate_lastLabel, if_neg (by rw [hlast]; exact Bool.false_ne_true),
    if_pos hpre]
  split
  · rename_i heq
    rw [hdec] at heq
    exact Option.noConfusion heq
  · rename_i dec heq
    rw [hdec] at heq
    injection heq with h2
    subst h2
    split
    · rename_i hv
      rw [hval] at hv
      exact Option.noConfusion hv
    · rename_i hv
      rw [hval] at hv
      injection hv with h3
      exact Bool.noConfusion h3
    · rfl

/-- Step equation: a non-`xn--` label that validates recurses, appending the
label itself when rebuilding. -/
theorem processLabelsGo_cons_direct_ok (T : UnicodeTables) (ch cj tp rb : Bool)
    (dn l : List Char) (rest : List (List Char)) (st : LabelLoopSt)
    (hl : l ≠ []) (hlast : st.lastLabel = false)
    (hpre : (cs "xn--").isPrefixOf l = false)
    (hval : labelIsValid T l ch cj tp = some true) :
    processLabelsGo T ch cj tp rb dn (l :: rest) st =
      processLabelsGo T ch cj tp rb dn rest
        { sepUpdate rb st with
            out := if rb then (sepUpdate rb st).out ++ l
                   else (sepUpdate rb st).out } := by
  rw [processLabelsGo, if_neg hl]
  simp only
  rw [sepUpdate_lastLabel, if_neg (by rw [hlast]; exact Bool.false_ne_true),
    if_neg (by rw [hpre]; exact Bool.false_ne_true)]
  split
  · rename_i hv
    rw [hval] at hv
    exact Option.noConfusion hv
  · rename_i hv
    rw [hval] at hv
    injection hv with h3
    exact Bool.noConfusion h3
  · rfl

/-- Replaying a `Steps` run through the label loop with rebuilding on. -/
theorem Steps.replay {T : UnicodeTables} {ch cj tp : Bool}
    {L M : List (List Char)} {t : Bool} (hs : Steps T ch cj tp L M t) :
    ∀ (dn : List Char) (st : LabelLoopSt), st.lastLabel = false →
      processLabelsGo T ch cj tp true dn L st =
        .ok (st.out ++ outFormula st.firstLabel M t) := by
  induction hs with
  | nil =>
    intro dn st _
    show RunResult.ok st.out = _
    unfold outFormula outSegs
    simp
  | trail =>
    intro dn st h
    rw [processLabelsGo_cons_empty T ch cj tp true dn [] st h]
    show RunResult.ok (st.out ++ ['.']) = _
    unfold outFormula outSegs
    simp
  | puny hne hpre hdec hval hrec ih =>
    rename_i l m L' M' t'
    intro dn st h
    rw [processLabelsGo_cons_puny_ok T ch cj tp true dn l L' st m hne h hpre hdec hval]
    rw [ih dn _ (by rw [sepUpdate_lastLabel]; exact h)]
    simp only [sepUpdate_firstLabel]
    rw [sepUpdate_out_true]
    by_cases hf : st.firstLabel = true
    · rw [if_pos hf, hf, List.append_assoc, outFormula_cons_true]
    · have hf' : st.firstLabel = false := by simpa using hf
      rw [if_neg hf, hf', List.append_assoc, List.append_assoc]
      rw [show ['.'] ++ (m ++ outFormula false M' t') =
        '.' :: (m ++ outFormula false M' t') from rfl]
      rw [outFormula_cons_false]
  | direct hne hpre hval hrec ih =>
    rename_i l L' M' t'
    intro dn st h
    rw [processLabelsGo_cons_direct_ok T ch cj tp true dn l L' st hne h
      (Bool.eq_false_iff.mpr hpre) hval]
    rw [ih dn _ (by rw [sepUpdate_lastLabel]; exact h)]
    simp only [sepUpdate_firstLabel]
    rw [if_pos trivial, sepUpdate_out_true]
    by_cases hf : st.firstLabel = true
    · rw [if_pos hf, hf, List.append_assoc, outFormula_cons_true]
    · have hf' : st.firstLabel = false := by simpa using hf
      rw [if_neg hf, hf', List.append_assoc, List.append_assoc]
      rw [show ['.'] ++ (l ++ outFormula false M' t') =
        '.' :: (l ++ outFormula false M' t') from rfl]
      rw [outFormula_cons_false]

/-- Inverting a successful run of the label loop into a `Steps` relation
(with the rebuild output characterized when rebuilding is on). -/
theorem processLabelsGo_ok_steps {T : UnicodeTables} {ch cj tp rb : Bool}
    {dn : List Char} :
    ∀ (L : List (List Char)) st out, st.lastLabel = false →
      processLabelsGo T ch cj tp rb dn L st = .ok out →
      ∃ M t, Steps T ch cj tp L M t ∧
        (rb = true → out = st.out ++ outFormula st.firstLabel M t) := by
  intro L
  induction L with
  | nil =>
    intro st out _ hok
    refine ⟨[], false, Steps.nil, fun _ => ?_⟩
    have hout : st.out = out := by
      rw [processLabelsGo] at hok
      exact (RunResult.ok.injEq _ _).mp hok
    rw [← hout]
    unfold outFormula outSegs
    simp
  | cons l rest ih =>
    intro st out h hok
    by_cases hl : l = []
    · subst hl
      rw [processLabelsGo_cons_empty T ch cj tp rb dn rest st h] at hok
      rcases hrest : rest with - | ⟨r, rs⟩
      · subst hrest
        rw [processLabelsGo] at hok
        refine ⟨[], true, Steps.trail, fun hrb => ?_⟩
        subst hrb
        have hout := (RunResult.ok.injEq _ _).mp hok
        rw [← hout]
        show (if (true : Bool) then st.out ++ ['.'] else st.out) = _
        unfold outFormula outSegs
        simp
      · subst hrest
        exact absurd hok (processLabelsGo_lastLabel r rs _ rfl out)
    · rw [processLabelsGo, if_neg hl] at hok
      simp only at hok
      rw [sepUpdate_lastLabel, if_neg (by rw [h]; exact Bool.false_ne_true)] at hok
      by_cases hpre : ((cs "xn--").isPrefixOf l) = true
      · rw [if_pos hpre] at hok
        split at hok
        · exact RunResult.noConfusion hok
        · rename_i dec heq
          split at hok
          · exact RunResult.noConfusion hok
          · exact RunResult.noConfusion hok
          · rename_i hv
            obtain ⟨M, t, hsteps, hout⟩ := ih _ out (by exact h) hok
            refine ⟨dec :: M, t, Steps.puny hl hpre heq hv hsteps, fun hrb => ?_⟩
            subst hrb
            have hfl := hout rfl
            simp only [sepUpdate_firstLabel] at hfl
            rw [hfl, sepUpdate_out_true]
            by_cases hf : st.firstLabel = true
            · rw [if_pos hf, hf, List.append_assoc, outFormula_cons_true]
            · have hf' : st.firstLabel = false := by simpa using hf
              rw [if_neg hf, hf', List.append_assoc, List.append_assoc]
              rw [show ['.'] ++ (dec ++ outFormula false M t) =
                '.' :: (dec ++ outFormula false M t) from rfl]
              rw [outFormula_cons_false]
      · rw [if_neg hpre] at hok
        split at hok
        · exact RunResult.noConfusion hok
        · exact RunResult.noConfusion hok
        · rename_i hv
          obtain ⟨M, t, hsteps, hout⟩ := ih _ out (by exact h) hok
          refine ⟨l :: M, t, Steps.direct hl hpre hv hsteps, fun hrb => ?_⟩
          subst hrb
          have hfl := hout rfl
          simp only [sepUpdate_firstLabel] at hfl
          rw [if_pos trivial] at hfl
          rw [hfl, sepUpdate_out_true]
          by_cases hf : st.firstLabel = true
          · rw [if_pos hf, hf, List.append_assoc, outFormula_cons_true]
          · have hf' : st.firstLabel = false := by simpa using hf
            rw [if_neg hf, hf', List.append_assoc, List.append_assoc]
            rw [show ['.'] ++ (l ++ outFormula false M t) =
              '.' :: (l ++ outFormula false M t) from rfl]
            rw [outFormula_cons_false]

/-- A `Steps` run starting from a list with an ACE-prefixed label processes at
least one label. -/
theorem Steps.M_ne_nil_of_xn {T : UnicodeTables} {ch cj tp : Bool}
    {L M : List (List Char)} {t : Bool} (hs : Steps T ch cj tp L M t)
    (hxn : ∃ l ∈ L, (cs "xn--").isPrefixOf l = true) : M ≠ [] := by
  cases hs with
  | nil =>
    obtain ⟨l, hl, _⟩ := hxn
    cases hl
  | trail =>
    obtain ⟨l, hl, hp⟩ := hxn
    rcases List.mem_singleton.mp hl with rfl
    exact absurd hp (by decide)
  | puny hne hpre hdec hval hrec => exact List.cons_ne_nil _ _
  | direct hne hpre hval hrec => exact List.cons_ne_nil _ _

/-- Appending a final empty piece appends a final separator to the join. -/
theorem joinSep_append_nil (sep : Char) :
    ∀ M : List (List Char), M ≠ [] →
      joinSep sep (M ++ [[]]) = joinSep sep M ++ [sep] := by
  intro M
  induction M with
  | nil => intro h; exact absurd rfl h
  | cons m ms ih =>
    intro _
    rcases ms with - | ⟨r, rs⟩
    · rfl
    · show m ++ sep :: joinSep sep ((r :: rs) ++ [[]]) =
        (m ++ sep :: joinSep sep (r :: rs)) ++ [sep]
      rw [ih (List.cons_ne_nil _ _), List.append_assoc, List.cons_append]

/-- Splitting the rebuilt output recovers the processed labels (plus the
root label when a trailing dot was recorded). -/
theorem splitOnChar_outFormula (M : List (List Char)) (t : Bool)
    (hM : M ≠ []) (hdot : ∀ m ∈ M, ∀ c ∈ m, c ≠ '.') :
    splitOnChar '.' (outFormula true M t) = M ++ (if t then [[]] else []) := by
  rcases M with - | ⟨m, ms⟩
  · exact absurd rfl hM
  cases t with
  | false =>
    show splitOnChar '.' (joinSep '.' (m :: ms) ++ []) = (m :: ms) ++ []
    rw [List.append_nil, List.append_nil]
    exact splitOnChar_joinSep '.' _ (List.cons_ne_nil _ _) hdot
  | true =>
    show splitOnChar '.' (joinSep '.' (m :: ms) ++ ['.']) = (m :: ms) ++ [[]]
    rw [← joinSep_append_nil '.' (m :: ms) (List.cons_ne_nil _ _)]
    refine splitOnChar_joinSep '.' _ (by simp) ?_
    intro l hl
    rcases List.mem_append.mp hl with hl | hl
    · exact hdot l hl
    · rcases List.mem_singleton.mp hl with rfl
      intro c hc
      cases hc

/-- Inversion of a successful `process_idna` run: every non-root label of the
result passes Nontransitional validity, and when the Bidi check was enabled
and applicable it passed on the result's labels. -/
theorem processIdna_ok_inv {T : UnicodeTables} {d : List Char}
    {std3 ch cb cj tp : Bool} {P : List Char}
    (h : processIdna T d std3 ch cb cj tp = .ok P) :
    (∀ l ∈ splitOnChar '.' P, l ≠ [] → labelIsValid T l ch cj false = some true) ∧
    ((cb && isDomainBidi T P) = true → bidiCheckLoop T (splitOnChar '.' P) = none) := by
  unfold processIdna at h
  by_cases hd : d = []
  · rw [if_pos hd] at h
    exact RunResult.noConfusion h
  rw [if_neg hd] at h
  split at h
  · exact RunResult.noConfusion h
  · rename_i mapped hmap
    simp only at h
    split at h
    · exact RunResult.noConfusion h
    · exact RunResult.noConfusion h
    · exact RunResult.noConfusion h
    · rename_i out hloop
      obtain ⟨M, t, hsteps, hout⟩ :=
        processLabelsGo_ok_steps _ ⟨false, true, []⟩ out rfl hloop
      by_cases hreb : ((splitOnChar '.' (unicodeNormalizeFormC T mapped)).any
          (fun l => (cs "xn--").isPrefixOf l)) = true
      · rw [if_pos hreb] at h
        have hform : out = outFormula true M t := by
          have h1 := hout hreb
          simpa using h1
        have hM : M ≠ [] := by
          refine hsteps.M_ne_nil_of_xn ?_
          obtain ⟨l, hl, hp⟩ := List.any_eq_true.mp hreb
          exact ⟨l, hl, by simpa using hp⟩
        have hdot : ∀ m ∈ M, ∀ c ∈ m, c ≠ '.' :=
          fun m hm => (labelIsValid_inv (hsteps.valid m hm)).2.1
        have hsplit : splitOnChar '.' out = M ++ (if t then [[]] else []) := by
          rw [hform]
          exact splitOnChar_outFormula M t hM hdot
        have hvalid : ∀ l ∈ splitOnChar '.' out, l ≠ [] →
            labelIsValid T l ch cj false = some true := by
          intro l hl hlne
          rw [hsplit] at hl
          rcases List.mem_append.mp hl with hl | hl
          · exact hsteps.valid l hl
          · cases t with
            | false => cases hl
            | true =>
              rcases List.mem_singleton.mp hl with rfl
              exact absurd rfl hlne
        split at h
        · rename_i hcb
          split at h
          · exact RunResult.noConfusion h
          · rename_i hbid
            have hP := (RunResult.ok.injEq _ _).mp h
            subst hP
            exact ⟨hvalid, fun _ => hbid⟩
        · rename_i hcb
          have hP := (RunResult.ok.injEq _ _).mp h
          subst hP
          exact ⟨hvalid, fun hc => absurd hc hcb⟩
      · rw [if_neg hreb] at h
        have hnoxn : ∀ l ∈ splitOnChar '.' (unicodeNormalizeFormC T mapped),
            ¬(cs "xn--").isPrefixOf l := by
          intro l hl hp
          exact hreb (List.any_eq_true.mpr ⟨l, hl, by simpa using hp⟩)
        have hLM := hsteps.eq_of_no_xn hnoxn
        have hvalid : ∀ l ∈ splitOnChar '.' (unicodeNormalizeFormC T mapped),
            l ≠ [] → labelIsValid T l ch cj false = some true := by
          intro l hl hlne
          rw [hLM] at hl
          rcases List.mem_append.mp hl with hl | hl
          · exact hsteps.valid l hl
          · cases t with
            | false => cases hl
            | true =>
              rcases List.mem_singleton.mp hl with rfl
              exact absurd rfl hlne
        split at h
        · rename_i hcb
          split at h
          · exact RunResult.noConfusion h
          · rename_i hbid
            have hP := (RunResult.ok.injEq _ _).mp h
            subst hP
            exact ⟨hvalid, fun _ => hbid⟩
        · rename_i hcb
          have hP := (RunResult.ok.injEq _ _).mp h
          subst hP
          exact ⟨hvalid, fun hc => absurd hc hcb⟩

/-- The label loop never reaches the `panicked` outcome: it has no unwrap. -/
theorem processLabelsGo_ne_panicked {T : UnicodeTables} {ch cj tp rb : Bool}
    {dn : List Char} :
    ∀ (L : List (List Char)) st, processLabelsGo T ch cj tp rb dn L st ≠ .panicked := by
  intro L
  induction L with
  | nil => intro st h; exact RunResult.noConfusion h
  | cons l rest ih =>
    intro st h
    rw [processLabelsGo] at h
    split at h
    · split at h
      · exact RunResult.noConfusion h
      · exact ih _ h
    · simp only at h
      split at h
      · exact RunResult.noConfusion h
      · split at h
        · split at h
          · exact RunResult.noConfusion h
          · split at h
            · exact RunResult.noConfusion h
            · exact RunResult.noConfusion h
            · exact ih _ h
        · split at h
          · exact RunResult.noConfusion h
          · exact RunResult.noConfusion h
          · exact ih _ h

/-- `process_idna` never reaches the `panicked` outcome. -/
theorem processIdna_ne_panicked (T : UnicodeTables) (d : List Char)
    (std3 ch cb cj tp : Bool) :
    processIdna T d std3 ch cb cj tp ≠ .panicked := by
  intro h
  unfold processIdna at h
  by_cases hd : d = []
  · rw [if_pos hd] at h
    exact RunResult.noConfusion h
  rw [if_neg hd] at h
  split at h
  · exact RunResult.noConfusion h
  · simp only at h
    split at h
    · exact RunResult.noConfusion h
    · exact RunResult.noConfusion h
    · rename_i hloop
      exact processLabelsGo_ne_panicked _ _ hloop
    · split at h
      · split at h
        · split at h
          · exact RunResult.noConfusion h
          · exact RunResult.noConfusion h
        · exact RunResult.noConfusion h
      · split at h
        · split at h
          · exact RunResult.noConfusion h
          · exact RunResult.noConfusion h
        · exact RunResult.noConfusion h

/-- The encoding loop cannot panic when every non-ASCII label it visits has a
successful Punycode encoding. -/
theorem encodeLabelsGo_ne_panicked (T : UnicodeTables) :
    ∀ (L : List (List Char)),
      (∀ l ∈ L, isAsciiStr l = false → T.punyEncode l ≠ none) →
      ∀ (first : Bool) (out : List Char),
        encodeLabelsGo T L first out ≠ .panicked := by
  intro L
  induction L with
  | nil => intro _ first out h; exact RunResult.noConfusion h
  | cons l rest ih =>
    intro hgood first out h
    rw [encodeLabelsGo] at h
    split at h
    · exact ih (fun l' hl' => hgood l' (List.mem_cons_of_mem _ hl')) _ _ h
    · rename_i hna
      split at h
      · rename_i henc
        exact hgood l (List.mem_cons_self _ _)
          (Bool.eq_false_iff.mpr hna) henc
      · exact ih (fun l' hl' => hgood l' (List.mem_cons_of_mem _ hl')) _ _ h

/-- A variant of the embedding's Unicode-services record whose Punycode
encoder is total, witnessing the encoder contract of the spec. -/
def totalEncodeTable : UnicodeTables :=
  { specTable with punyEncode := fun _ => some [] }

/-- C9: under the spec's encoder contract — Punycode encoding succeeds on any
label that has passed (Nontransitional) label-validity checking — the
`.unwrap()` of `punycode::encode` inside `idna_unicode_to_ascii` is
unreachable: for every domain and flag combination, `idna_to_ascii` never
panics. -/
theorem encode_unwrap_safe (T : UnicodeTables) (d : List Char)
    (ch cb cj std3 tp vdl : Bool)
    (henc : ∀ l, labelIsValid T l ch cj false = some true →
      T.punyEncode l ≠ none) :
    idnaUnicodeToAscii T d ch cb cj std3 tp vdl ≠ .panicked := by
  intro h
  unfold idnaUnicodeToAscii at h
  split at h
  · exact RunResult.noConfusion h
  · exact RunResult.noConfusion h
  · rename_i hpi
    exact processIdna_ne_panicked T d std3 ch cb cj tp hpi
  · rename_i P hP
    split at h
    · exact RunResult.noConfusion h
    · exact RunResult.noConfusion h
    · rename_i hmid
      split at hmid
      · exact RunResult.noConfusion hmid
      · refine encodeLabelsGo_ne_panicked T _ ?_ true [] hmid
        intro l hl hna
        refine henc l ((processIdna_ok_inv hP).1 l hl ?_)
        intro hleq
        subst hleq
        exact absurd hna (by decide)
    · split at h
      · simp only at h
        split at h
        · split at h
          · exact RunResult.noConfusion h
          · split at h
            · exact RunResult.noConfusion h
            · exact RunResult.noConfusion h
        · split at h
          · exact RunResult.noConfusion h
          · split at h
            · exact RunResult.noConfusion h
            · exact RunResult.noConfusion h
      · exact RunResult.noConfusion h

/-- Witness for the encoder-contract safety theorem at a concrete table,
domain and flag assignment. -/
theorem encode_unwrap_safe_witness :
    idnaUnicodeToAscii totalEncodeTable (cs "a")
      false false false false false false ≠ .panicked :=
  encode_unwrap_safe totalEncodeTable (cs "a") false false false false false false
    (fun _ _ hn => Option.noConfusion hn)

/-! ### Round-trip machinery -/

/-- A character passing the Nontransitional status re-check is `Valid` or a
deviation character. -/
theorem statusOk_char {T : UnicodeTables} {l : List Char} {c : Char}
    (h : labelStatusesOk T false l = true) (hc : c ∈ l) :
    T.mapping c = .Valid ∨ ∃ m, T.mapping c = .Deviation m := by
  unfold labelStatusesOk at h
  rw [List.all_eq_true] at h
  have hx := h c hc
  revert hx
  cases hm : T.mapping c with
  | Valid => exact fun _ => Or.inl rfl
  | Ignored => exact fun hx => Bool.noConfusion hx
  | Mapped s => exact fun hx => Bool.noConfusion hx
  | Deviation s => exact fun _ => Or.inr ⟨s, rfl⟩
  | Disallowed => exact fun hx => Bool.noConfusion hx
  | DisallowedStd3Valid => exact fun hx => Bool.noConfusion hx
  | DisallowedStd3Mapped s => exact fun hx => Bool.noConfusion hx

/-- The Nontransitional mapping loop keeps text whose characters are all
`Valid` or deviation characters. -/
theorem idnaMapGo_id {T : UnicodeTables} {std3 : Bool} :
    ∀ s : List Char,
      (∀ c ∈ s, T.mapping c = .Valid ∨ ∃ m, T.mapping c = .Deviation m) →
      idnaMapGo T false std3 s = .ok s := by
  intro s
  induction s with
  | nil => intro _; rfl
  | cons c r ih =>
    intro h
    rw [idnaMapGo]
    have htail := ih (fun c' hc' => h c' (List.mem_cons_of_mem _ hc'))
    rcases h c (List.mem_cons_self _ _) with hv | ⟨m, hv⟩
    · rw [hv, htail]
      rfl
    · rw [hv, htail]
      rfl

/-- The Nontransitional mapping stage keeps text whose characters are all
`Valid` or deviation characters. -/
theorem idnaMapping_id {T : UnicodeTables} {s : List Char} {std3 : Bool}
    (h : ∀ c ∈ s, T.mapping c = .Valid ∨ ∃ m, T.mapping c = .Deviation m) :
    idnaMapping T s false std3 = .ok s := by
  unfold idnaMapping
  by_cases hnr : allNrChars s = true
  · rw [if_pos hnr]
  · rw [if_neg hnr]
    exact idnaMapGo_id s h

/-- The per-label step of the encoding loop: ASCII labels pass through,
non-ASCII labels become `"xn--" ++ encode(label)`. -/
def encStep (T : UnicodeTables) (l : List Char) : List Char :=
  if isAsciiStr l then l else cs "xn--" ++ (T.punyEncode l).getD []

theorem encStep_nil (T : UnicodeTables) : encStep T [] = [] := rfl

theorem joinSep_cons_cons (sep : Char) (a b : List Char) (bs : List (List Char)) :
    joinSep sep (a :: b :: bs) = a ++ sep :: joinSep sep (b :: bs) := rfl

theorem outSegs_cons_true (m : List Char) (M : List (List Char)) :
    m ++ outSegs false M = outSegs true (m :: M) := by
  cases M with
  | nil =>
    show m ++ ([] : List Char) = m
    rw [List.append_nil]
  | cons x xs => rfl

theorem outSegs_cons_false (m : List Char) (M : List (List Char)) :
    '.' :: (m ++ outSegs false M) = outSegs false (m :: M) := by
  cases M with
  | nil =>
    show '.' :: (m ++ ([] : List Char)) = '.' :: m
    rw [List.append_nil]
  | cons x xs => rfl

/-- A join with at least one non-empty piece is non-empty. -/
theorem joinSep_ne_nil_of_mem {sep : Char} {L : List (List Char)} {l : List Char}
    (hl : l ∈ L) (hne : l ≠ []) : joinSep sep L ≠ [] := by
  rcases L with - | ⟨a, as⟩
  · cases hl
  rcases as with - | ⟨b, bs⟩
  · rcases List.mem_singleton.mp hl with rfl
    exact fun h => hne h
  · rw [joinSep_cons_cons]
    intro h
    exact List.noConfusion (List.append_eq_nil.mp h).2

/-- The rebuild output equals the joined processed labels (with the root
label appended when a trailing dot was recorded). -/
theorem outFormula_eq_joinSep (M : List (List Char)) (t : Bool) (hM : M ≠ []) :
    outFormula true M t = joinSep '.' (M ++ (if t then [[]] else [])) := by
  rcases M with - | ⟨m, ms⟩
  · exact absurd rfl hM
  cases t with
  | false =>
    show joinSep '.' (m :: ms) ++ [] = joinSep '.' ((m :: ms) ++ [])
    rw [List.append_nil, List.append_nil]
  | true =>
    show joinSep '.' (m :: ms) ++ ['.'] = joinSep '.' ((m :: ms) ++ [[]])
    rw [joinSep_append_nil '.' _ (List.cons_ne_nil _ _)]

/-- A non-final piece of a longer list is non-final in the extended list. -/
theorem mem_dropLast_cons {α : Type} {l' a : α} {r : List α}
    (h : l' ∈ r.dropLast) : l' ∈ (a :: r).dropLast := by
  rcases r with - | ⟨b, bs⟩
  · cases h
  · rw [List.dropLast_cons₂]
    exact List.mem_cons_of_mem _ h

/-- A non-empty label list whose non-final labels are non-empty splits into
non-empty labels plus an optional final empty (root) label. -/
theorem split_decomp (L : List (List Char)) (hL : L ≠ [])
    (hsh : ∀ l ∈ L.dropLast, l ≠ []) :
    ∃ (Lp : List (List Char)) (t : Bool),
      L = Lp ++ (if t then [[]] else []) ∧ ∀ l ∈ Lp, l ≠ [] := by
  by_cases hlast : L.getLast hL = []
  · refine ⟨L.dropLast, true, ?_, hsh⟩
    show L = L.dropLast ++ [[]]
    conv_lhs => rw [← List.dropLast_append_getLast hL]
    rw [hlast]
  · refine ⟨L, false, (List.append_nil L).symm, ?_⟩
    intro l hl
    by_cases hld : l ∈ L.dropLast
    · exact hsh l hld
    · have hdec := List.dropLast_append_getLast hL
      rw [← hdec] at hl
      rcases List.mem_append.mp hl with h1 | h1
      · exact hsh l h1
      · rcases List.mem_singleton.mp h1 with rfl
        exact hlast

/-- The ACE prefix is a Boolean prefix of its own extension. -/
theorem isPrefixOf_xn_append (e : List Char) :
    (cs "xn--").isPrefixOf (cs "xn--" ++ e) = true :=
  List.isPrefixOf_iff_prefix.mpr ⟨e, rfl⟩

/-- A successful run of the encoding loop produces the separator-joined
per-label encodings. -/
theorem encodeLabelsGo_ok_inv {T : UnicodeTables} :
    ∀ (L : List (List Char)) (first : Bool) (out A : List Char),
      encodeLabelsGo T L first out = .ok A →
      A = out ++ outSegs first (L.map (encStep T)) := by
  intro L
  induction L with
  | nil =>
    intro first out A h
    rw [encodeLabelsGo] at h
    have := (RunResult.ok.injEq _ _).mp h
    rw [← this]
    unfold outSegs
    simp
  | cons l rest ih =>
    intro first out A h
    rw [encodeLabelsGo] at h
    split at h
    · rename_i hca
      have hih := ih false _ A h
      have hstep : encStep T l = l := by rw [encStep, if_pos hca]
      rw [hih]
      simp only [List.map_cons, hstep]
      by_cases hf : first = true
      · rw [if_pos hf, hf, List.append_assoc, outSegs_cons_true]
      · have hf' : first = false := Bool.eq_false_iff.mpr hf
        rw [if_neg hf, hf', List.append_assoc, List.append_assoc]
        rw [show ['.'] ++ (l ++ outSegs false (rest.map (encStep T))) =
          '.' :: (l ++ outSegs false (rest.map (encStep T))) from rfl]
        rw [outSegs_cons_false]
    · rename_i hca
      split at h
      · exact RunResult.noConfusion h
      · rename_i e henc
        have hih := ih false _ A h
        have hstep : encStep T l = cs "xn--" ++ e := by
          rw [encStep, if_neg hca, henc]
          rfl
        rw [hih]
        simp only [List.map_cons, hstep]
        by_cases hf : first = true
        · rw [if_pos hf, hf, List.append_assoc, List.append_assoc,
            ← List.append_assoc (cs "xn--") e, outSegs_cons_true]
        · have hf' : first = false := Bool.eq_false_iff.mpr hf
          rw [if_neg hf, hf', List.append_assoc, List.append_assoc, List.append_assoc]
          rw [show ['.'] ++ (cs "xn--" ++ (e ++ outSegs false (rest.map (encStep T)))) =
            '.' :: (cs "xn--" ++ (e ++ outSegs false (rest.map (encStep T)))) from rfl]
          rw [← List.append_assoc (cs "xn--") e, outSegs_cons_false]
    
/-- A successful run of the encoding loop implies every non-ASCII label it
visited has a successful Punycode encoding. -/
theorem encodeLabelsGo_ok_enc {T : UnicodeTables} :
    ∀ (L : List (List Char)) (first : Bool) (out A : List Char),
      encodeLabelsGo T L first out = .ok A →
      ∀ l ∈ L, isAsciiStr l = false → T.punyEncode l ≠ none := by
  intro L
  induction L with
  | nil => intro _ _ _ _ l hl; cases hl
  | cons l0 rest ih =>
    intro first out A h l hl hna
    rw [encodeLabelsGo] at h
    split at h
    · rename_i hca
      rcases List.mem_cons.mp hl with rfl | hl'
      · rw [hca] at hna
        exact absurd hna (by decide)
      · exact ih false _ A h l hl' hna
    · split at h
      · exact RunResult.noConfusion h
      · rename_i e henc
        rcases List.mem_cons.mp hl with rfl | hl'
        · rw [henc]; exact fun hx => Option.noConfusion hx
        · exact ih false _ A h l hl' hna

/-- With rebuilding off, the label loop succeeds verbatim on a label list
that has no ACE prefixes, no non-final empty labels, and only valid labels,
returning the accumulated output unchanged. -/
theorem processLabelsGo_ok_of_valid {T : UnicodeTables} {ch cj tp : Bool}
    {dn : List Char} :
    ∀ (L : List (List Char)) st, st.lastLabel = false →
      (∀ l ∈ L.dropLast, l ≠ []) →
      (∀ l ∈ L, (cs "xn--").isPrefixOf l = false) →
      (∀ l ∈ L, l ≠ [] → labelIsValid T l ch cj tp = some true) →
      processLabelsGo T ch cj tp false dn L st = .ok st.out := by
  intro L
  induction L with
  | nil => intro st _ _ _ _; rfl
  | cons l rest ih =>
    intro st hlast hsh hxn hval
    by_cases hl : l = []
    · subst hl
      rcases rest with - | ⟨r, rs⟩
      · rw [processLabelsGo_cons_empty T ch cj tp false dn [] st hlast]
        rfl
      · refine absurd rfl (hsh [] ?_)
        rw [List.dropLast_cons₂]
        exact List.mem_cons_self _ _
    · rw [processLabelsGo_cons_direct_ok T ch cj tp false dn l rest st hl hlast
        (hxn l (List.mem_cons_self _ _)) (hval l (List.mem_cons_self _ _) hl)]
      have hstep := ih
        { sepUpdate false st with
            out := if false then (sepUpdate false st).out ++ l
                   else (sepUpdate false st).out }
        (by rw [sepUpdate_lastLabel]; exact hlast)
        (fun l' hl' => hsh l' (mem_dropLast_cons hl'))
        (fun l' hl' => hxn l' (List.mem_cons_of_mem _ hl'))
        (fun l' hl' => hval l' (List.mem_cons_of_mem _ hl'))
      rw [hstep]
      show RunResult.ok ((sepUpdate false st).out) = _
      rw [sepUpdate_out_false]

/-- Building a successful `process_idna` run when nothing needs rebuilding. -/
theorem processIdna_ok_noRebuild (T : UnicodeTables) (d mapped : List Char)
    (std3 ch cb cj tp : Bool)
    (hd : d ≠ []) (hmap : idnaMapping T d tp std3 = .ok mapped)
    (hany : ((splitOnChar '.' (unicodeNormalizeFormC T mapped)).any
      (fun l => (cs "xn--").isPrefixOf l)) = false)
    (hloop : processLabelsGo T ch cj tp false (unicodeNormalizeFormC T mapped)
      (splitOnChar '.' (unicodeNormalizeFormC T mapped)) ⟨false, true, []⟩ = .ok [])
    (hbidi : (cb && isDomainBidi T (unicodeNormalizeFormC T mapped)) = true →
      bidiCheckLoop T (splitOnChar '.' (unicodeNormalizeFormC T mapped)) = none) :
    processIdna T d std3 ch cb cj tp = .ok (unicodeNormalizeFormC T mapped) := by
  unfold processIdna
  rw [if_neg hd, hmap]
  show (match processLabelsGo T ch cj tp
      ((splitOnChar '.' (unicodeNormalizeFormC T mapped)).any
        (fun l => (cs "xn--").isPrefixOf l))
      (unicodeNormalizeFormC T mapped)
      (splitOnChar '.' (unicodeNormalizeFormC T mapped)) ⟨false, true, []⟩ with
    | .err e => RunResult.err e
    | .diverged => RunResult.diverged
    | .panicked => RunResult.panicked
    | .ok out =>
      if cb && isDomainBidi T
          (if (splitOnChar '.' (unicodeNormalizeFormC T mapped)).any
            (fun l => (cs "xn--").isPrefixOf l) then out
           else unicodeNormalizeFormC T mapped) then
        match bidiCheckLoop T (splitOnChar '.'
            (if (splitOnChar '.' (unicodeNormalizeFormC T mapped)).any
              (fun l => (cs "xn--").isPrefixOf l) then out
             else unicodeNormalizeFormC T mapped)) with
        | some e => RunResult.err e
        | none => RunResult.ok
            (if (splitOnChar '.' (unicodeNormalizeFormC T mapped)).any
              (fun l => (cs "xn--").isPrefixOf l) then out
             else unicodeNormalizeFormC T mapped)
      else RunResult.ok
          (if (splitOnChar '.' (unicodeNormalizeFormC T mapped)).any
            (fun l => (cs "xn--").isPrefixOf l) then out
           else unicodeNormalizeFormC T mapped)) =
    RunResult.ok (unicodeNormalizeFormC T mapped)
  rw [hany, hloop]
  show (if cb && isDomainBidi T (unicodeNormalizeFormC T mapped) then
      match bidiCheckLoop T (splitOnChar '.' (unicodeNormalizeFormC T mapped)) with
      | some e => RunResult.err e
      | none => RunResult.ok (unicodeNormalizeFormC T mapped)
    else RunResult.ok (unicodeNormalizeFormC T mapped)) =
    RunResult.ok (unicodeNormalizeFormC T mapped)
  by_cases hb : (cb && isDomainBidi T (unicodeNormalizeFormC T mapped)) = true
  · rw [if_pos hb, hbidi hb]
  · rw [if_neg hb]

/-- Building a successful `process_idna` run that rebuilds from decoded
labels. -/
theorem processIdna_ok_rebuild (T : UnicodeTables) (d mapped out : List Char)
    (std3 ch cb cj tp : Bool)
    (hd : d ≠ []) (hmap : idnaMapping T d tp std3 = .ok mapped)
    (hany : ((splitOnChar '.' (unicodeNormalizeFormC T mapped)).any
      (fun l => (cs "xn--").isPrefixOf l)) = true)
    (hloop : processLabelsGo T ch cj tp true (unicodeNormalizeFormC T mapped)
      (splitOnChar '.' (unicodeNormalizeFormC T mapped)) ⟨false, true, []⟩ = .ok out)
    (hbidi : (cb && isDomainBidi T out) = true →
      bidiCheckLoop T (splitOnChar '.' out) = none) :
    processIdna T d std3 ch cb cj tp = .ok out := by
  unfold processIdna
  rw [if_neg hd, hmap]
  show (match processLabelsGo T ch cj tp
      ((splitOnChar '.' (unicodeNormalizeFormC T mapped)).any
        (fun l => (cs "xn--").isPrefixOf l))
      (unicodeNormalizeFormC T mapped)
      (splitOnChar '.' (unicodeNormalizeFormC T mapped)) ⟨false, true, []⟩ with
    | .err e => RunResult.err e
    | .diverged => RunResult.diverged
    | .panicked => RunResult.panicked
    | .ok o =>
      if cb && isDomainBidi T
          (if (splitOnChar '.' (unicodeNormalizeFormC T mapped)).any
            (fun l => (cs "xn--").isPrefixOf l) then o
           else unicodeNormalizeFormC T mapped) then
        match bidiCheckLoop T (splitOnChar '.'
            (if (splitOnChar '.' (unicodeNormalizeFormC T mapped)).any
              (fun l => (cs "xn--").isPrefixOf l) then o
             else unicodeNormalizeFormC T mapped)) with
        | some e => RunResult.err e
        | none => RunResult.ok
            (if (splitOnChar '.' (unicodeNormalizeFormC T mapped)).any
              (fun l => (cs "xn--").isPrefixOf l) then o
             else unicodeNormalizeFormC T mapped)
      else RunResult.ok
          (if (splitOnChar '.' (unicodeNormalizeFormC T mapped)).any
            (fun l => (cs "xn--").isPrefixOf l) then o
           else unicodeNormalizeFormC T mapped)) =
    RunResult.ok out
  rw [hany, hloop]
  show (if cb && isDomainBidi T out then
      match bidiCheckLoop T (splitOnChar '.' out) with
      | some e => RunResult.err e
      | none => RunResult.ok out
    else RunResult.ok out) = RunResult.ok out
  by_cases hb : (cb && isDomainBidi T out) = true
  · rw [if_pos hb, hbidi hb]
  · rw [if_neg hb]

/-- Encoding valid labels and re-running the label loop decodes them back:
the `Steps` relation over the per-label encodings. -/
theorem Steps.ofEnc {T : UnicodeTables} {ch cj : Bool}
    (hrt : ∀ l e, T.punyEncode l = some e → T.punyDecode e = some l) :
    ∀ (Lp : List (List Char)) (t : Bool),
      (∀ l ∈ Lp, l ≠ []) →
      (∀ l ∈ Lp, labelIsValid T l ch cj false = some true) →
      (∀ l ∈ Lp, isAsciiStr l = true → (cs "xn--").isPrefixOf l = false) →
      (∀ l ∈ Lp, isAsciiStr l = false → T.punyEncode l ≠ none) →
      Steps T ch cj false
        (Lp.map (encStep T) ++ (if t then [[]] else [])) Lp t := by
  intro Lp
  induction Lp with
  | nil =>
    intro t _ _ _ _
    cases t with
    | false => exact Steps.nil
    | true => exact Steps.trail
  | cons l rest ih =>
    intro t hne hval hxn henc
    have htail := ih t
      (fun l' hl' => hne l' (List.mem_cons_of_mem _ hl'))
      (fun l' hl' => hval l' (List.mem_cons_of_mem _ hl'))
      (fun l' hl' => hxn l' (List.mem_cons_of_mem _ hl'))
      (fun l' hl' => henc l' (List.mem_cons_of_mem _ hl'))
    by_cases hca : isAsciiStr l = true
    · have hstep : encStep T l = l := by rw [encStep, if_pos hca]
      show Steps T ch cj false
        (encStep T l :: (rest.map (encStep T) ++ _)) (l :: rest) t
      rw [hstep]
      exact Steps.direct (hne l (List.mem_cons_self _ _))
        (by rw [hxn l (List.mem_cons_self _ _) hca]; exact Bool.false_ne_true)
        (hval l (List.mem_cons_self _ _)) htail
    · have hca' : isAsciiStr l = false := Bool.eq_false_iff.mpr hca
      rcases he : T.punyEncode l with - | ⟨e⟩
      · exact absurd he (henc l (List.mem_cons_self _ _) hca')
      · have hstep : encStep T l = cs "xn--" ++ e := by
          rw [encStep, if_neg hca, he]
          rfl
        show Steps T ch cj false
          (encStep T l :: (rest.map (encStep T) ++ _)) (l :: rest) t
        rw [hstep]
        refine Steps.puny ?_ (isPrefixOf_xn_append e) ?_
          (hval l (List.mem_cons_self _ _)) htail
        · intro hnil
          exact List.noConfusion (List.append_eq_nil.mp hnil).1
        · rw [show (4 : Nat) = (cs "xn--").length from rfl, List.drop_left]
          exact hrt l e he

/-- Inversion of the DNS-length verification block of
`idna_unicode_to_ascii`: a successful result is the processed domain. -/
theorem vdlBlock_inv {dn A : List Char} {vdl : Bool}
    (h : (if vdl then
        (let len := if dn.getLast? = some '.' then dn.length - 1 else dn.length;
         if !(1 ≤ len && len ≤ 253) then
           RunResult.err (.InvalidDomainLength dn)
         else
           match dnsLabelLoop dn (splitOnChar '.' dn) false with
           | some e => RunResult.err e
           | none => RunResult.ok dn)
      else RunResult.ok dn) = .ok A) : A = dn := by
  split at h
  · simp only at h
    split at h
    · split at h
      · exact RunResult.noConfusion h
      · split at h
        · exact RunResult.noConfusion h
        · exact ((RunResult.ok.injEq _ _).mp h).symm
    · split at h
      · exact RunResult.noConfusion h
      · split at h
        · exact RunResult.noConfusion h
        · exact ((RunResult.ok.injEq _ _).mp h).symm
  · exact ((RunResult.ok.injEq _ _).mp h).symm

/-- C3 (amended): the round-trip holds under the external-transcoder
contract — decoding inverts encoding, encodings are ASCII, dot-free and
status-`Valid`, and the ACE/separator characters `x`, `n`, `-`, `.` are
status-`Valid` — provided the Unicode form `P = to_unicode(D)` is non-empty,
has empty labels only in final (root) position, and no label of `P` carries
the ACE prefix `xn--`.  Then `to_unicode(to_ascii(D))` (Nontransitional)
returns exactly `P`, hence a string NFC-equal to `to_unicode(D)`. -/
theorem idna_roundtrip_amended (T : UnicodeTables) (d A P : List Char)
    (ch cb cj std3 tp vdl : Bool)
    (hrt : ∀ l e, T.punyEncode l = some e → T.punyDecode e = some l)
    (hek : ∀ l e, T.punyEncode l = some e →
      ∀ c ∈ e, c.toNat < 128 ∧ T.mapping c = .Valid ∧ c ≠ '.')
    (hxv : T.mapping 'x' = .Valid) (hnv : T.mapping 'n' = .Valid)
    (hhv : T.mapping '-' = .Valid) (hdv : T.mapping '.' = .Valid)
    (hA : idnaUnicodeToAscii T d ch cb cj std3 tp vdl = .ok A)
    (hP : idnaAsciiToUnicode T d ch cb cj std3 tp = .ok P)
    (hPne : P ≠ [])
    (hshape : ∀ l ∈ (splitOnChar '.' P).dropLast, l ≠ [])
    (hxn : ∀ l ∈ splitOnChar '.' P, (cs "xn--").isPrefixOf l = false) :
    idnaAsciiToUnicode T A ch cb cj std3 false = .ok P := by
  have hPP : processIdna T d std3 ch cb cj tp = .ok P := hP
  have hinv := processIdna_ok_inv hPP
  have hjoin : joinSep '.' (splitOnChar '.' P) = P := joinSep_splitOnChar '.' P
  have hsplitne : splitOnChar '.' P ≠ [] := splitOnChar_ne_nil '.' P
  have hPchars : ∀ c ∈ P, c = '.' ∨ ∃ l ∈ splitOnChar '.' P, c ∈ l := by
    intro c hc
    rw [← hjoin] at hc
    rcases mem_joinSep _ c hc with ⟨l, hl, hcl⟩ | rfl
    · exact Or.inr ⟨l, hl, hcl⟩
    · exact Or.inl rfl
  unfold idnaUnicodeToAscii at hA
  split at hA
  · exact absurd hA (by intro hx; exact RunResult.noConfusion hx)
  · exact absurd hA (by intro hx; exact RunResult.noConfusion hx)
  · exact absurd hA (by intro hx; exact RunResult.noConfusion hx)
  · rename_i dn0 heq0
    rw [hPP] at heq0
    have hdP : P = dn0 := (RunResult.ok.injEq _ _).mp heq0
    subst hdP
    by_cases hPa : isAsciiStr P = true
    · -- the processed domain is already ASCII: A = P
      rw [if_pos hPa] at hA
      have hAP : A = P := vdlBlock_inv hA
      subst hAP
      show processIdna T A std3 ch cb cj false = .ok A
      have hnfcP : unicodeNormalizeFormC T A = A := normalizeFormC_ascii hPa
      have hmapP : idnaMapping T A false std3 = .ok A := by
        refine idnaMapping_id ?_
        intro c hc
        rcases hPchars c hc with rfl | ⟨l, hl, hcl⟩
        · exact Or.inl hdv
        · have hlne : l ≠ [] := List.ne_nil_of_mem hcl
          exact statusOk_char (labelIsValid_inv (hinv.1 l hl hlne)).1 hcl
      have hanyP : ((splitOnChar '.' A).any
          (fun l => (cs "xn--").isPrefixOf l)) = false := by
        rw [Bool.eq_false_iff]
        intro hany
        obtain ⟨l, hl, hp⟩ := List.any_eq_true.mp hany
        rw [hxn l hl] at hp
        exact Bool.noConfusion hp
      have hloopP : processLabelsGo T ch cj false false A (splitOnChar '.' A)
          ⟨false, true, []⟩ = .ok [] :=
        processLabelsGo_ok_of_valid (splitOnChar '.' A) ⟨false, true, []⟩ rfl
          hshape hxn (fun l hl hlne => hinv.1 l hl hlne)
      have hb := processIdna_ok_noRebuild T A A std3 ch cb cj false hPne hmapP
        (by rw [hnfcP]; exact hanyP)
        (by rw [hnfcP]; exact hloopP)
        (by rw [hnfcP]; exact hinv.2)
      rw [hnfcP] at hb
      exact hb
    · -- the processed domain needs encoding
      have hPa' : isAsciiStr P = false := Bool.eq_false_iff.mpr hPa
      rw [if_neg hPa] at hA
      split at hA
      · exact RunResult.noConfusion hA
      · exact RunResult.noConfusion hA
      · exact RunResult.noConfusion hA
      · rename_i dn1 heq1
        have hadn : A = dn1 := vdlBlock_inv hA
        subst hadn
        have hA2 : A = outSegs true ((splitOnChar '.' P).map (encStep T)) := by
          have := encodeLabelsGo_ok_inv (splitOnChar '.' P) true [] A heq1
          rw [this, List.nil_append]
        have hencP := encodeLabelsGo_ok_enc (splitOnChar '.' P) true [] A heq1
        obtain ⟨Lp, t, hdecomp, hLpmem⟩ := split_decomp (splitOnChar '.' P)
          hsplitne hshape
        have hmemLp : ∀ l ∈ Lp, l ∈ splitOnChar '.' P := by
          intro l hl
          rw [hdecomp]
          exact List.mem_append.mpr (Or.inl hl)
        have hsteps := Steps.ofEnc hrt Lp t hLpmem
          (fun l hl => hinv.1 l (hmemLp l hl) (hLpmem l hl))
          (fun l hl _ => hxn l (hmemLp l hl))
          (fun l hl => hencP l (hmemLp l hl))
        have hpieces : (splitOnChar '.' P).map (encStep T) =
            Lp.map (encStep T) ++ (if t then [[]] else []) := by
          have htr : (if t then [[]] else ([] : List (List Char))).map (encStep T) =
              (if t then [[]] else []) := by
            cases t with
            | false => rfl
            | true =>
              show [encStep T []] = [[]]
              rw [encStep_nil]
          rw [hdecomp, List.map_append, htr]
        -- a non-ASCII label of P exists
        have hex : ∃ c ∈ P, ¬(c.toNat < 128) := by
          by_contra hno
          push_neg at hno
          have hPa2 : isAsciiStr P = true := by
            unfold isAsciiStr
            rw [List.all_eq_true]
            intro c hc
            simpa using hno c hc
          rw [hPa2] at hPa'
          exact Bool.noConfusion hPa'
        obtain ⟨c0, hc0P, hc0na⟩ := hex
        rcases hPchars c0 hc0P with rfl | ⟨l0, hl0, hcl0⟩
        · exact absurd (by decide) hc0na
        have hl0ne : l0 ≠ [] := List.ne_nil_of_mem hcl0
        have hl0na : isAsciiStr l0 = false := by
          rw [Bool.eq_false_iff]
          intro ha
          unfold isAsciiStr at ha
          rw [List.all_eq_true] at ha
          exact hc0na (by simpa using ha c0 hcl0)
        have hl0Lp : l0 ∈ Lp := by
          rw [hdecomp] at hl0
          rcases List.mem_append.mp hl0 with h1 | h1
          · exact h1
          · cases t with
            | false => cases h1
            | true =>
              rcases List.mem_singleton.mp h1 with rfl
              exact absurd rfl hl0ne
        have hLpne : Lp ≠ [] := List.ne_nil_of_mem hl0Lp
        obtain ⟨e0, he0⟩ : ∃ e, T.punyEncode l0 = some e := by
          rcases he : T.punyEncode l0 with - | ⟨e⟩
          · exact absurd he (hencP l0 hl0 hl0na)
          · exact ⟨e, rfl⟩
        have hstep0 : encStep T l0 = cs "xn--" ++ e0 := by
          rw [encStep, if_neg (by rw [hl0na]; exact Bool.false_ne_true), he0]
          rfl
        have hne0 : encStep T l0 ≠ [] := by
          rw [hstep0]
          intro h
          exact List.noConfusion (List.append_eq_nil.mp h).1
        have hpne : (splitOnChar '.' P).map (encStep T) ≠ [] := by
          intro h
          exact hsplitne (List.map_eq_nil_iff.mp h)
        -- per-character facts about the encoded pieces
        have hpc : ∀ p ∈ (splitOnChar '.' P).map (encStep T), ∀ c ∈ p,
            c.toNat < 128 ∧
            (T.mapping c = .Valid ∨ ∃ m, T.mapping c = .Deviation m) ∧
            c ≠ '.' := by
          intro p hp c hc
          obtain ⟨l, hl, rfl⟩ := List.mem_map.mp hp
          by_cases hca : isAsciiStr l = true
          · have hstep : encStep T l = l := by rw [encStep, if_pos hca]
            rw [hstep] at hc
            have hlne : l ≠ [] := List.ne_nil_of_mem hc
            have hinv2 := labelIsValid_inv (hinv.1 l hl hlne)
            refine ⟨?_, statusOk_char hinv2.1 hc, hinv2.2.1 c hc⟩
            unfold isAsciiStr at hca
            rw [List.all_eq_true] at hca
            simpa using hca c hc
          · have hca' : isAsciiStr l = false := Bool.eq_false_iff.mpr hca
            rcases he : T.punyEncode l with - | ⟨e⟩
            · exact absurd he (hencP l hl hca')
            have hstep : encStep T l = cs "xn--" ++ e := by
              rw [encStep, if_neg hca, he]
              rfl
            rw [hstep] at hc
            rcases List.mem_append.mp hc with hc | hc
            · have hcs : cs "xn--" = ['x', 'n', '-', '-'] := rfl
              rw [hcs] at hc
              rcases List.mem_cons.mp hc with rfl | hc
              · exact ⟨by decide, Or.inl hxv, by decide⟩
              rcases List.mem_cons.mp hc with rfl | hc
              · exact ⟨by decide, Or.inl hnv, by decide⟩
              rcases List.mem_cons.mp hc with rfl | hc
              · exact ⟨by decide, Or.inl hhv, by decide⟩
              rcases List.mem_cons.mp hc with rfl | hc
              · exact ⟨by decide, Or.inl hhv, by decide⟩
              cases hc
            · obtain ⟨h128, hvv, hdd⟩ := hek l e he c hc
              exact ⟨h128, Or.inl hvv, hdd⟩
        -- A is the joined encoded pieces
        have hAjoin : A = joinSep '.' ((splitOnChar '.' P).map (encStep T)) := by
          rw [hA2]
          rcases hq : (splitOnChar '.' P).map (encStep T) with - | ⟨q, qs⟩
          · exact absurd hq hpne
          · rfl
        have hAne : A ≠ [] := by
          rw [hAjoin]
          exact joinSep_ne_nil_of_mem (List.mem_map_of_mem _ hl0) hne0
        have hAascii : isAsciiStr A = true := by
          unfold isAsciiStr
          rw [List.all_eq_true]
          intro c hc
          rw [hAjoin] at hc
          rcases mem_joinSep _ c hc with ⟨p, hp, hcp⟩ | rfl
          · simpa using (hpc p hp c hcp).1
          · decide
        have hnfcA : unicodeNormalizeFormC T A = A := normalizeFormC_ascii hAascii
        have hmapA : idnaMapping T A false std3 = .ok A := by
          refine idnaMapping_id ?_
          intro c hc
          rw [hAjoin] at hc
          rcases mem_joinSep _ c hc with ⟨p, hp, hcp⟩ | rfl
          · exact (hpc p hp c hcp).2.1
          · exact Or.inl hdv
        have hsplitA : splitOnChar '.' A = (splitOnChar '.' P).map (encStep T) := by
          rw [hAjoin]
          exact splitOnChar_joinSep '.' _ hpne (fun p hp c hcp => (hpc p hp c hcp).2.2)
        have hanyA : (((splitOnChar '.' P).map (encStep T)).any
            (fun l => (cs "xn--").isPrefixOf l)) = true := by
          refine List.any_eq_true.mpr ⟨encStep T l0, List.mem_map_of_mem _ hl0, ?_⟩
          rw [hstep0]
          exact isPrefixOf_xn_append e0
        have hloopA : processLabelsGo T ch cj false true A
            ((splitOnChar '.' P).map (encStep T)) ⟨false, true, []⟩ = .ok P := by
          rw [hpieces]
          rw [hsteps.replay A ⟨false, true, []⟩ rfl]
          show RunResult.ok ([] ++ outFormula true Lp t) = RunResult.ok P
          rw [List.nil_append, outFormula_eq_joinSep Lp t hLpne, ← hdecomp, hjoin]
        show processIdna T A std3 ch cb cj false = .ok P
        exact processIdna_ok_rebuild T A A P std3 ch cb cj false hAne hmapA
          (by rw [hnfcA, hsplitA]; exact hanyA)
          (by rw [hnfcA, hsplitA]; exact hloopA)
          hinv.2

/-- C3: the unqualified round-trip fails.  `to_ascii("xn--xn---")` succeeds
with output `"xn--"`, yet `to_unicode` of that output is `""` while
`to_unicode` of the original domain is `"xn--"` — two NFC-stable strings
that are not NFC-equal. -/
theorem idna_roundtrip_counterexample :
    idnaUnicodeToAscii specTable (cs "xn--xn---")
      false false false false false false = .ok (cs "xn--") ∧
    idnaAsciiToUnicode specTable (cs "xn--xn---")
      false false false false false = .ok (cs "xn--") ∧
    idnaAsciiToUnicode specTable (cs "xn--")
      false false false false false = .ok [] ∧
    unicodeNormalizeFormC specTable [] ≠
      unicodeNormalizeFormC specTable (cs "xn--") := by
  refine ⟨by decide, by decide, by decide, by decide⟩

/-- Witness for the amended round-trip theorem at a concrete table, domain
and flag assignment (the embedding's table has a never-succeeding encoder,
so the transcoder-contract hypotheses hold vacuously). -/
theorem idna_roundtrip_amended_witness :
    idnaAsciiToUnicode specTable (cs "a") false false false false false =
      .ok (cs "a") :=
  idna_roundtrip_amended specTable (cs "a") (cs "a") (cs "a")
    false false false false false false
    (fun _ _ h => Option.noConfusion h)
    (fun _ _ h => Option.noConfusion h)
    (by decide) (by decide) (by decide) (by decide)
    (by decide) (by decide) (by decide)
    (by decide) (by decide)

/-- C6: `parse_ipv6` recognizes the RFC 3986 alternatives with `::`
compression zero-filling omitted groups: `"::1"` is
`[0,0,0,0,0,0,0,1]`, `"::"` is all zeros, and `"::FFFF:129.144.52.38"`
takes the embedded IPv4 literal as the final two groups `0x8190, 0x3426`. -/
theorem ipv6_compression_examples :
    parseIpv6 (cs "::1") = some ([], [0, 0, 0, 0, 0, 0, 0, 1]) ∧
    parseIpv6 (cs "::") = some ([], [0, 0, 0, 0, 0, 0, 0, 0]) ∧
    parseIpv6 (cs "::FFFF:129.144.52.38") =
      some ([], [0, 0, 0, 0, 0, 0xFFFF, 0x8190, 0x3426]) := by
  refine ⟨by decide, by decide, by decide⟩

end RustHttp
